import Mathlib

/-!
Z-order row comparator (`be/src/util/row_cursor_zorder_comparator.h`).

A shallow embedding of `RowCurosrZOrderComparator`: the shared-representation
encoder (`get_shared_representation` and its helpers), the byte-order normaliser
(`ByteSwapScalar`), the width selection (`max_col_size`, `compare`) and the
most-significant-differing-bit reduction (`compare_based_on_size`).

Conventions.
* An unsigned machine integer of type `U` is a natural number below `2 ^ bits U`;
  every operation on it reduces modulo `2 ^ bits U` where the C++ one does.
* A signed machine integer is an `Int`; `to_signed n` is the two's-complement
  reading of an `n`-bit pattern.
* The host is little-endian (the byte at the lowest address is the least
  significant one), as on the platforms the engine is built for.
-/

namespace doris

/-! ## Types the header takes from its includes -/

/-- The column kinds the comparator switches over (`FieldType`, declared in
`olap/olap_common.h`); exactly the enumerators the header names. -/
inductive FieldType where
  | OLAP_FIELD_TYPE_TINYINT
  | OLAP_FIELD_TYPE_UNSIGNED_TINYINT
  | OLAP_FIELD_TYPE_SMALLINT
  | OLAP_FIELD_TYPE_UNSIGNED_SMALLINT
  | OLAP_FIELD_TYPE_INT
  | OLAP_FIELD_TYPE_UNSIGNED_INT
  | OLAP_FIELD_TYPE_BIGINT
  | OLAP_FIELD_TYPE_UNSIGNED_BIGINT
  | OLAP_FIELD_TYPE_LARGEINT
  | OLAP_FIELD_TYPE_FLOAT
  | OLAP_FIELD_TYPE_DOUBLE
  | OLAP_FIELD_TYPE_DISCRETE_DOUBLE
  | OLAP_FIELD_TYPE_CHAR
  | OLAP_FIELD_TYPE_DATE
  | OLAP_FIELD_TYPE_DATETIME
  | OLAP_FIELD_TYPE_DECIMAL
  | OLAP_FIELD_TYPE_VARCHAR
  | OLAP_FIELD_TYPE_STRUCT
  | OLAP_FIELD_TYPE_ARRAY
  | OLAP_FIELD_TYPE_MAP
  | OLAP_FIELD_TYPE_UNKNOWN
  | OLAP_FIELD_TYPE_NONE
  | OLAP_FIELD_TYPE_HLL
  | OLAP_FIELD_TYPE_BOOL
  | OLAP_FIELD_TYPE_OBJECT
  deriving DecidableEq, Repr

/-- The three instantiations of the template parameter `U`. -/
inductive UType where
  | uint32_t
  | uint64_t
  | uint128_t
  deriving DecidableEq, Repr

/-- The value of `sizeof(U)`. -/
def UType.sizeof : UType → Nat
  | .uint32_t => 4
  | .uint64_t => 8
  | .uint128_t => 16

/-- The number of bits of `U`, `sizeof(U) * 8`. -/
def UType.bits (U : UType) : Nat := U.sizeof * 8

/-- One byte of character data. -/
abbrev Byte := Fin 256

/-- What `cell_ptr()` points at. The encoder reads it through a
`reinterpret_cast` chosen by the column type:
* `scalar v`: a fixed-size number (bool, integer, float or double). `v` is an
  integer whose two's-complement pattern is the little-endian content of the
  bytes at the address; a read of `n` bytes sees `v` modulo `2 ^ (8 * n)`.
* `decimal12_t integer fraction`: the two fields of a `decimal12_t`.
* `StringValue ptr`: a `StringValue` whose `ptr` designates the listed bytes and
  whose `len` is their number. -/
inductive Payload where
  | scalar (v : Int)
  | decimal12_t (integer : Int) (fraction : Int)
  | StringValue (ptr : List Byte)
  deriving DecidableEq, Repr

/-- A cell of a row: its null flag and the payload behind `cell_ptr()`. -/
structure Cell where
  is_null : Bool
  cell_ptr : Payload
  deriving DecidableEq, Repr

/-- A row (`ContiguousRow` or `RowCursor`), through the capability the
comparator uses: the cell at an ordinal. -/
structure Row where
  cell : Nat → Cell

/-- The schema: its number of columns and the type of the column at an
ordinal (`schema->column(i)->type()`). Ordinals from `num_columns` on are
outside the schema; callers bind a sort-column count that stays within it. -/
structure Schema where
  num_columns : Nat
  column : Nat → FieldType

/-! ## Machine arithmetic -/

/-- Two's-complement reading of the low `n` bits of `v` as a signed number. -/
def to_signed (n : Nat) (v : Int) : Int :=
  (v + 2 ^ (n - 1)) % 2 ^ n - 2 ^ (n - 1)

/-- Conversion to the unsigned type `U`, `static_cast<U>(v)`: reduction modulo
`2 ^ bits U`. -/
def static_cast (U : UType) (v : Int) : Nat := (v % 2 ^ U.bits).toNat

/-- Left shift on `U`, `x << s` for `s < bits U`: the bits shifted past the top
are dropped. -/
def shl (U : UType) (x s : Nat) : Nat := (x * 2 ^ s) % 2 ^ U.bits

/-- The difference `(sizeof(U) - sizeof(T)) * 8`, evaluated in `size_t`
(64 bits, wrapping). -/
def size_diff_bits (U : UType) (sizeof_T : Nat) : Nat :=
  (((U.sizeof + 2 ^ 64 - sizeof_T) % 2 ^ 64) * 8) % 2 ^ 64

/-- The constant `mask = (U) 1 << (sizeof(U) * 8 - 1)`, the top bit of `U`. -/
def mask (U : UType) : Nat := shl U 1 (U.sizeof * 8 - 1)

/-- The read `*reinterpret_cast<const T*>(val)` for a signed integer type `T`
of `n` bits. A payload of another layout is outside the row contract; the
embedding reads it as 0. -/
def Payload.read_int (n : Nat) : Payload → Int
  | .scalar v => to_signed n v
  | _ => 0

/-- The read `*reinterpret_cast<const bool*>(val)`: the byte at the address is
0 for false and 1 for true. -/
def Payload.read_bool : Payload → Bool
  | .scalar v => v % 256 != 0
  | _ => false

/-- The bit pattern of the `n`-bit floating-point number at the address. -/
def Payload.read_float_bits (n : Nat) : Payload → Nat
  | .scalar v => (v % 2 ^ n).toNat
  | _ => 0

/-- The fields `integer` (an `int64_t`) and `fraction` (an `int32_t`) of the
`decimal12_t` at the address. -/
def Payload.read_decimal12 : Payload → Int × Int
  | .decimal12_t integer fraction => (to_signed 64 integer, to_signed 32 fraction)
  | _ => (0, 0)

/-- The character data of the `StringValue` at the address. -/
def Payload.read_string : Payload → List Byte
  | .StringValue ptr => ptr
  | _ => []

/-! ## The shared-representation encoder -/

/-- The member template `get_shared_int_representation<U, T>(val, mask)`; `sizeof_T`
is `sizeof(T)` and `val` the signed value read from the cell. -/
def get_shared_int_representation (U : UType) (sizeof_T : Nat) (val : Int) (mask : Nat) : Nat :=
  let shift_size : Nat := (max (to_signed 64 (size_diff_bits U sizeof_T)) 0).toNat
  (shl U (static_cast U val) shift_size) ^^^ mask

/-- Number of explicit mantissa bits of the IEEE-754 binary format of `n` bits
(`float` is binary32, `double` is binary64). -/
def mantissa_bits (n : Nat) : Nat := if n = 32 then 23 else 52

/-- The test `std::isnan` on the `n`-bit pattern: all exponent bits set and a
non-zero mantissa. -/
def float_isnan (n : Nat) (bits : Nat) : Bool :=
  let m := mantissa_bits n
  (bits / 2 ^ m) % 2 ^ (n - 1 - m) == 2 ^ (n - 1 - m) - 1 && bits % 2 ^ m != 0

/-- The test `floating_value < 0.0` on the `n`-bit pattern: the sign bit is set,
the magnitude is not zero (`-0.0 < 0.0` is false) and the value is not a NaN. -/
def float_lt_zero (n : Nat) (bits : Nat) : Bool :=
  (bits / 2 ^ (n - 1)) % 2 == 1 && bits % 2 ^ (n - 1) != 0 && !float_isnan n bits

/-- The member template `get_shared_float_representation<U, T>(val, mask)`;
`sizeof_T` is `sizeof(T)`. `tmp` is declared without an initialiser and `memcpy`
overwrites its low `sizeof(T)` bytes only: `tmp0` is the content it starts with. -/
def get_shared_float_representation (U : UType) (sizeof_T : Nat) (val : Payload) (mask : Nat)
    (tmp0 : Int) : Nat :=
  let n := sizeof_T * 8
  let floating_value : Nat := val.read_float_bits n
  let tmp : Int := to_signed 64 ((tmp0 % 2 ^ 64) / 2 ^ n * 2 ^ n + floating_value)
  if float_isnan n floating_value then 0
  else
    let s : Int := to_signed 32 (size_diff_bits U sizeof_T)
    if float_lt_zero n floating_value then
      -- Flipping all bits for negative values.
      shl U (static_cast U (-tmp - 1)) (max s 0).toNat
    else
      -- Flipping only first bit.
      (shl U (static_cast U tmp) (max s 0).toNat) ^^^ mask

/-- Modelled from the spec: `BitUtil::byte_swap` (declared in `util/bit_util.h`) is
the closed-form swap of the byte-order normaliser, the reversal of the bytes of a
16-, 32- or 64-bit value. The value is given by its bytes in memory order. -/
def byte_swap (bytes : List Byte) : List Byte := bytes.reverse

/-- The read of `n` bytes at `src + off`. -/
def load (src : List Byte) (off n : Nat) : List Byte := (src.drop off).take n

/-- The write of `bytes` at `dst + off`. -/
def store (dst : List Byte) (off : Nat) (bytes : List Byte) : List Byte :=
  dst.take off ++ bytes ++ dst.drop (off + bytes.length)

/-- The member function `ByteSwapScalar(dest, source, len)`: `dest` is the memory
of the destination before the call, the result is that memory after it. -/
def ByteSwapScalar (dest source : List Byte) (len : Nat) : List Byte :=
  match len with
  | 1 => store dest 0 (load source 0 1)
  | 2 => store dest 0 (byte_swap (load source 0 2))
  | 3 =>
    let d := store dest 1 (byte_swap (load source 0 2))
    store d 0 (load source 2 1)
  | 4 => store dest 0 (byte_swap (load source 0 4))
  | 5 =>
    let d := store dest 1 (byte_swap (load source 0 4))
    store d 0 (load source 4 1)
  | 6 =>
    let d := store dest 2 (byte_swap (load source 0 4))
    store d 0 (byte_swap (load source 4 2))
  | 7 =>
    let d := store dest 3 (byte_swap (load source 0 4))
    let d := store d 1 (byte_swap (load source 4 2))
    store d 0 (load source 6 1)
  | 8 => store dest 0 (byte_swap (load source 0 8))
  | 9 =>
    let d := store dest 1 (byte_swap (load source 0 8))
    store d 0 (load source 8 1)
  | 10 =>
    let d := store dest 2 (byte_swap (load source 0 8))
    store d 0 (byte_swap (load source 8 2))
  | 11 =>
    let d := store dest 3 (byte_swap (load source 0 8))
    let d := store d 1 (byte_swap (load source 8 2))
    store d 0 (load source 10 1)
  | 12 =>
    let d := store dest 4 (byte_swap (load source 0 8))
    store d 0 (byte_swap (load source 8 4))
  | 13 =>
    let d := store dest 5 (byte_swap (load source 0 8))
    let d := store d 1 (byte_swap (load source 8 4))
    store d 0 (load source 12 1)
  | 14 =>
    let d := store dest 6 (byte_swap (load source 0 8))
    let d := store d 2 (byte_swap (load source 8 4))
    store d 0 (byte_swap (load source 12 2))
  | 15 =>
    let d := store dest 7 (byte_swap (load source 0 8))
    let d := store d 3 (byte_swap (load source 8 4))
    let d := store d 1 (byte_swap (load source 12 2))
    store d 0 (load source 14 1)
  | 16 =>
    let d := store dest 8 (byte_swap (load source 0 8))
    store d 0 (byte_swap (load source 8 8))
  | _ =>
    -- Revert to slow loop-based swap.
    (List.range len).foldl (fun d i => store d i (load source (len - i - 1) 1)) dest

/-- The unsigned number held by the bytes of a little-endian object. -/
def le_value : List Byte → Nat
  | [] => 0
  | b :: bs => b.val + 256 * le_value bs

/-- The member template `get_shared_string_representation<U>(char_ptr, length)`;
`length` is the `len` of the `StringValue`, a number that fits the `int` parameter. -/
def get_shared_string_representation (U : UType) (char_ptr : List Byte) (length : Nat) : Nat :=
  let len := if length < U.sizeof then length else U.sizeof
  if len = 0 then 0
  else
    let dst : List Byte := List.replicate U.sizeof 0
    let dst := ByteSwapScalar dst char_ptr len
    shl U (le_value dst) ((U.sizeof - len) * 8)

/-- Modelled from the spec: `DecimalV2Value::ONE_BILLION` (declared in
`runtime/decimalv2_value.h`) is the fractional scale `10^9` of a fixed-point
decimal. -/
def DecimalV2Value.ONE_BILLION : Int := 1000000000

/-- The expression `decimal_val.integer*DecimalV2Value::ONE_BILLION + decimal_val.fraction`.
Its operands are an `int64_t`, the constant and an `int32_t`; the constant is an
integer of at most 64 bits (it fits 32), so by the usual arithmetic conversions
the product and the sum are evaluated in `int64_t`, and the `int64_t` result is
what initialises the `int128_t value`. Overflow wraps modulo `2 ^ 64`. -/
def decimal12_value (integer fraction : Int) : Int :=
  to_signed 64 (to_signed 64 (integer * DecimalV2Value.ONE_BILLION) + fraction)

/-- The member template `get_shared_representation<U>(val, type)`; `val` is `none`
for the null pointer. The float encoder is run with its uninitialised `tmp` at 0:
that content does not reach the result
(`get_shared_float_representation_tmp_irrelevant`). -/
def get_shared_representation (U : UType) (val : Option Payload) (type : FieldType) : Nat :=
  match val with
  | none => 0
  | some val =>
    match type with
    | .OLAP_FIELD_TYPE_NONE => 0
    | .OLAP_FIELD_TYPE_BOOL =>
      shl U (static_cast U (if val.read_bool then 1 else 0)) (U.sizeof * 8 - 1)
    | .OLAP_FIELD_TYPE_UNSIGNED_TINYINT =>
      get_shared_int_representation U 1 (val.read_int 8) (static_cast U 0)
    | .OLAP_FIELD_TYPE_TINYINT =>
      get_shared_int_representation U 1 (val.read_int 8) (mask U)
    | .OLAP_FIELD_TYPE_UNSIGNED_SMALLINT =>
      get_shared_int_representation U 2 (val.read_int 16) (static_cast U 0)
    | .OLAP_FIELD_TYPE_SMALLINT =>
      get_shared_int_representation U 2 (val.read_int 16) (mask U)
    | .OLAP_FIELD_TYPE_INT =>
      get_shared_int_representation U 4 (val.read_int 32) (mask U)
    | .OLAP_FIELD_TYPE_DATETIME
    | .OLAP_FIELD_TYPE_DATE
    | .OLAP_FIELD_TYPE_UNSIGNED_BIGINT =>
      get_shared_int_representation U 8 (val.read_int 64) (static_cast U 0)
    | .OLAP_FIELD_TYPE_BIGINT =>
      get_shared_int_representation U 8 (val.read_int 64) (mask U)
    | .OLAP_FIELD_TYPE_LARGEINT =>
      static_cast U (val.read_int 128) ^^^ mask U
    | .OLAP_FIELD_TYPE_FLOAT =>
      get_shared_float_representation U 4 val (mask U) 0
    | .OLAP_FIELD_TYPE_DISCRETE_DOUBLE
    | .OLAP_FIELD_TYPE_DOUBLE =>
      get_shared_float_representation U 8 val (mask U) 0
    | .OLAP_FIELD_TYPE_CHAR
    | .OLAP_FIELD_TYPE_VARCHAR =>
      let string_value := val.read_string
      get_shared_string_representation U string_value string_value.length
    | .OLAP_FIELD_TYPE_DECIMAL =>
      let decimal_val := val.read_decimal12
      let value : Int := decimal12_value decimal_val.1 decimal_val.2
      static_cast U value ^^^ mask U
    | _ => 0

/-- The member function `get_type_byte_size(type)`; the `DCHECK(false)` arms are
taken as in a release build, where they fall through to `return -1`. -/
def get_type_byte_size (type : FieldType) : Int :=
  match type with
  | .OLAP_FIELD_TYPE_OBJECT
  | .OLAP_FIELD_TYPE_HLL
  | .OLAP_FIELD_TYPE_STRUCT
  | .OLAP_FIELD_TYPE_ARRAY
  | .OLAP_FIELD_TYPE_MAP
  | .OLAP_FIELD_TYPE_CHAR
  | .OLAP_FIELD_TYPE_VARCHAR => 0
  | .OLAP_FIELD_TYPE_NONE
  | .OLAP_FIELD_TYPE_BOOL
  | .OLAP_FIELD_TYPE_UNSIGNED_TINYINT
  | .OLAP_FIELD_TYPE_TINYINT => 1
  | .OLAP_FIELD_TYPE_SMALLINT
  | .OLAP_FIELD_TYPE_UNSIGNED_SMALLINT => 2
  | .OLAP_FIELD_TYPE_FLOAT
  | .OLAP_FIELD_TYPE_INT
  | .OLAP_FIELD_TYPE_UNSIGNED_INT => 4
  | .OLAP_FIELD_TYPE_DISCRETE_DOUBLE
  | .OLAP_FIELD_TYPE_DOUBLE
  | .OLAP_FIELD_TYPE_BIGINT
  | .OLAP_FIELD_TYPE_UNSIGNED_BIGINT => 8
  | .OLAP_FIELD_TYPE_DECIMAL
  | .OLAP_FIELD_TYPE_LARGEINT
  | .OLAP_FIELD_TYPE_DATETIME
  | .OLAP_FIELD_TYPE_DATE => 16
  | .OLAP_FIELD_TYPE_UNKNOWN => -1

/-! ## The comparator -/

/-- The data members of `RowCurosrZOrderComparator`, for a comparator bound to a
schema. -/
structure RowCurosrZOrderComparator where
  _max_col_size : Int
  _schema : Schema
  _sort_col_num : Int

/-- The pointer handed to the encoder for cell `i` of a row:
`row.cell(i).is_null() ? nullptr : row.cell(i).cell_ptr()`. -/
def Row.val (row : Row) (i : Nat) : Option Payload :=
  if (row.cell i).is_null then none else some (row.cell i).cell_ptr

/-- The loop of `max_col_size` from ordinal `i` on, `n` iterations left. -/
def max_col_size_loop (schema : Schema) : Nat → Nat → Int → Int
  | _, 0, max_col_size => max_col_size
  | i, n + 1, max_col_size =>
    if max_col_size < get_type_byte_size (schema.column i) then
      max_col_size_loop schema (i + 1) n (get_type_byte_size (schema.column i))
    else
      max_col_size_loop schema (i + 1) n max_col_size

/-- The member function `max_col_size(schema)`. The loop counter is a `size_t`,
so the bound `_sort_col_num` is converted to `size_t` for the comparison. -/
def RowCurosrZOrderComparator.max_col_size (self : RowCurosrZOrderComparator) (schema : Schema) :
    RowCurosrZOrderComparator :=
  let bound : Nat := (self._sort_col_num % 2 ^ 64).toNat
  { self with
    _max_col_size :=
      max_col_size_loop schema 1 (bound - 1) (get_type_byte_size (schema.column 0)) }

/-- The constructor `RowCurosrZOrderComparator(Schema* schema, int sort_col_num)`. -/
def RowCurosrZOrderComparator.new (schema : Schema) (sort_col_num : Int) :
    RowCurosrZOrderComparator :=
  RowCurosrZOrderComparator.max_col_size
    { _max_col_size := 0, _schema := schema, _sort_col_num := sort_col_num } schema

/-- The lambda `less_msb` of `compare_based_on_size`. -/
def less_msb (x y : Nat) : Bool := x < y && x < (x ^^^ y)

/-- The loop of `compare_based_on_size` from ordinal `i` on, `n` iterations left;
the result is the final pair `(msd_lhs, msd_rhs)`. -/
def compare_loop (U : UType) (schema : Schema) (lhs rhs : Row) : Nat → Nat → Nat → Nat → Nat × Nat
  | _, 0, msd_lhs, msd_rhs => (msd_lhs, msd_rhs)
  | i, n + 1, msd_lhs, msd_rhs =>
    let type := schema.column i
    let lhs_v := lhs.val i
    let rhs_v := rhs.val i
    let lhsi := get_shared_representation U lhs_v type
    let rhsi := get_shared_representation U rhs_v type
    if less_msb (msd_lhs ^^^ msd_rhs) (lhsi ^^^ rhsi) then
      compare_loop U schema lhs rhs (i + 1) n lhsi rhsi
    else
      compare_loop U schema lhs rhs (i + 1) n msd_lhs msd_rhs

/-- The member template `compare_based_on_size<U, LhsRowType>(lhs, rhs)`; `schema`
is `lhs.schema()`. The loop runs for `i = 1, ..., _sort_col_num - 1`. -/
def RowCurosrZOrderComparator.compare_based_on_size (self : RowCurosrZOrderComparator)
    (U : UType) (schema : Schema) (lhs rhs : Row) : Int :=
  let type := schema.column 0
  let msd_lhs := get_shared_representation U (lhs.val 0) type
  let msd_rhs := get_shared_representation U (rhs.val 0) type
  let msd := compare_loop U schema lhs rhs 1 (self._sort_col_num - 1).toNat msd_lhs msd_rhs
  if msd.1 < msd.2 then -1 else (if msd.1 > msd.2 then 1 else 0)

/-- The width `compare` and `compare_row` dispatch to for a given `_max_col_size`. -/
def select_U (max_col_size : Int) : UType :=
  if max_col_size ≤ 4 then .uint32_t
  else if max_col_size ≤ 8 then .uint64_t
  else .uint128_t

/-- The member function `compare(lhs, rhs)`: both rows are `ContiguousRow`s over
`_schema`. -/
def RowCurosrZOrderComparator.compare (self : RowCurosrZOrderComparator) (lhs rhs : Row) : Int :=
  self.compare_based_on_size (select_U self._max_col_size) self._schema lhs rhs

/-- The member function `compare_row(lhs, rhs)`; `schema` is `lhs.schema()`, from
which the width is recomputed. The result is the comparator after the call and
the value returned. -/
def RowCurosrZOrderComparator.compare_row (self : RowCurosrZOrderComparator) (schema : Schema)
    (lhs rhs : Row) : RowCurosrZOrderComparator × Int :=
  let self := self.max_col_size schema
  (self, self.compare_based_on_size (select_U self._max_col_size) schema lhs rhs)

/-- What a run of the constructor amounts to. `schema->column(i)` is an unchecked
access: reading the type of an ordinal that is not a column of the schema is
undefined behaviour, told apart here from a reported failure. -/
inductive Construction where
  /-- Every read was a column of the schema and the comparator is built. -/
  | constructed (c : RowCurosrZOrderComparator)
  /-- An error is returned or an assertion fires. -/
  | failed
  /-- The type of `ordinal`, not a column of the schema, is read. -/
  | read_outside_schema (ordinal : Nat)

/-- The loop of `max_col_size` from ordinal `i` on, `n` iterations left, stopped at
the first read outside the schema: `Except.error i` is that read, of ordinal `i`. -/
def max_col_size_loop_checked (schema : Schema) : Nat → Nat → Int → Except Nat Int
  | _, 0, max_col_size => .ok max_col_size
  | i, n + 1, max_col_size =>
    if i < schema.num_columns then
      if max_col_size < get_type_byte_size (schema.column i) then
        max_col_size_loop_checked schema (i + 1) n (get_type_byte_size (schema.column i))
      else
        max_col_size_loop_checked schema (i + 1) n max_col_size
    else .error i

/-- The constructor `RowCurosrZOrderComparator(Schema* schema, int sort_col_num)` with
its reads of the schema followed: it stores its arguments and runs
`max_col_size(_schema)`, which reads column 0 and then the columns of its loop. It
has no statement that returns an error, throws or asserts (the `DCHECK`s of
`get_type_byte_size` are taken as in a release build). -/
def RowCurosrZOrderComparator.construct (schema : Schema) (sort_col_num : Int) : Construction :=
  let bound : Nat := (sort_col_num % 2 ^ 64).toNat
  if 0 < schema.num_columns then
    match max_col_size_loop_checked schema 1 (bound - 1) (get_type_byte_size (schema.column 0)) with
    | .ok max_col_size =>
      .constructed
        { _max_col_size := max_col_size, _schema := schema, _sort_col_num := sort_col_num }
    | .error i => .read_outside_schema i
  else .read_outside_schema 0

/-! ## Reference notions the properties are stated with -/

/-- Three-way comparison of two unsigned numbers. -/
def three_way (a b : Nat) : Int := if a < b then -1 else (if a > b then 1 else 0)

/-- The encoded sort columns of a row: the shared representations of its cells
`0, ..., n - 1` at width `U`. -/
def encoded_columns (U : UType) (schema : Schema) (n : Nat) (row : Row) : List Nat :=
  (List.range n).map (fun i => get_shared_representation U (row.val i) (schema.column i))

/-- The bits of the Morton code of `cols`, most significant first: bit level
`w - 1` of every column in the order of the columns, then level `w - 2`, and so
on down to level 0. -/
def morton_bits : Nat → List Nat → List Bool
  | 0, _ => []
  | w + 1, cols => cols.map (fun c => c.testBit w) ++ morton_bits w cols

/-- The number written by a list of bits, most significant first. -/
def bits_value (bits : List Bool) : Nat :=
  bits.foldl (fun acc b => 2 * acc + b.toNat) 0

/-- The Morton code of `cols` at `w` bits per column: a number of
`cols.length * w` bits. -/
def morton_code (w : Nat) (cols : List Nat) : Nat := bits_value (morton_bits w cols)

/-- The shared representation of cell `i` of a row. -/
def rep (U : UType) (schema : Schema) (row : Row) (i : Nat) : Nat :=
  get_shared_representation U (row.val i) (schema.column i)

/-- Number of significant bits of the difference of the two rows at column `i`. -/
def diff_size (U : UType) (schema : Schema) (lhs rhs : Row) (i : Nat) : Nat :=
  (rep U schema lhs i ^^^ rep U schema rhs i).size

/-- Column `j` dominates the columns below `k`: no column below `k` has a higher
differing bit, and the columns before `j` have a strictly lower one. -/
def dominates (U : UType) (schema : Schema) (lhs rhs : Row) (j k : Nat) : Prop :=
  j < k ∧ (∀ i, i < k → diff_size U schema lhs rhs i ≤ diff_size U schema lhs rhs j) ∧
    (∀ i, i < j → diff_size U schema lhs rhs i < diff_size U schema lhs rhs j)

/-- The Morton code of the encoded sort columns of a row, the key the comparator
orders by (a count below 1 counts as 1). -/
def zorder_key (self : RowCurosrZOrderComparator) (U : UType) (schema : Schema) (row : Row) : Nat :=
  morton_code U.bits (encoded_columns U schema (max 1 self._sort_col_num).toNat row)

/-- The signed integer column types, of byte size 1, 2, 4, 8 and 16. -/
def signed_integer_types : List FieldType :=
  [.OLAP_FIELD_TYPE_TINYINT, .OLAP_FIELD_TYPE_SMALLINT, .OLAP_FIELD_TYPE_INT,
    .OLAP_FIELD_TYPE_BIGINT, .OLAP_FIELD_TYPE_LARGEINT]

/-- The unsigned integer column types, of byte size 1, 2, 4 and 8. -/
def unsigned_integer_types : List FieldType :=
  [.OLAP_FIELD_TYPE_UNSIGNED_TINYINT, .OLAP_FIELD_TYPE_UNSIGNED_SMALLINT,
    .OLAP_FIELD_TYPE_UNSIGNED_INT, .OLAP_FIELD_TYPE_UNSIGNED_BIGINT]

/-- The byte size of a column type as a natural number. -/
def byte_size (type : FieldType) : Nat := (get_type_byte_size type).toNat

/-- Lexicographic order on byte strings, bytes compared as unsigned numbers, a
proper prefix sorting before its extensions: `lex_le a b` is `a ≤ b`. -/
def lex_le : List Byte → List Byte → Prop
  | [], _ => True
  | _ :: _, [] => False
  | x :: xs, y :: ys => x < y ∨ (x = y ∧ lex_le xs ys)

/-- The number written by a byte string in big-endian order (first byte most
significant). -/
def be_value : List Byte → Nat
  | [] => 0
  | c :: s => c.val * 256 ^ s.length + be_value s

/-- The big-endian number written by the first `k` bytes of a string, a string
shorter than `k` bytes being padded with zero bytes at its end. -/
def prefix_value : Nat → List Byte → Nat
  | 0, _ => 0
  | _ + 1, [] => 0
  | k + 1, c :: s => c.val * 256 ^ k + prefix_value k s

/-- The signed magnitude of an `n`-bit IEEE-754 pattern. A pattern is a sign bit
over `n - 1` magnitude bits, and the number it denotes is the magnitude's value,
negated when the sign bit is set; the magnitude's value grows strictly with the
magnitude bits (zero, subnormal, normal, infinity). So for two patterns that are
not NaN, `a < b` in the numeric order exactly when the signed magnitude of `a` is
below that of `b`; `-0.0` and `+0.0` both have the signed magnitude 0 and are equal. -/
def float_signed_magnitude (n : Nat) (bits : Nat) : Int :=
  if (bits / 2 ^ (n - 1)) % 2 = 1 then -((bits % 2 ^ (n - 1) : Nat) : Int)
  else ((bits % 2 ^ (n - 1) : Nat) : Int)

/-- The IEEE-754 comparison `a < b` of two `n`-bit floating-point patterns; it is
false when one of them is a NaN. -/
def float_lt (n : Nat) (a b : Nat) : Bool :=
  !float_isnan n a && !float_isnan n b &&
    decide (float_signed_magnitude n a < float_signed_magnitude n b)

/-- A row of scalar cells, none of them null: cell `i` holds `vals[i]`, cells past
the end of the list hold 0. -/
def Row.of_scalars (vals : List Int) : Row :=
  { cell := fun i => { is_null := false, cell_ptr := .scalar (vals.getD i 0) } }

/-- A schema whose columns are the listed types (`OLAP_FIELD_TYPE_NONE` past the end). -/
def Schema.of_list (types : List FieldType) : Schema :=
  { num_columns := types.length, column := fun i => types.getD i .OLAP_FIELD_TYPE_NONE }

/-! ## The most-significant-bit test -/

theorem testBit_size_pred {n : Nat} (h : 0 < n) : n.testBit (n.size - 1) = true := by
  have hs : 0 < n.size := Nat.size_pos.2 h
  have hge : 2 ^ (n.size - 1) ≤ n := Nat.lt_size.1 (by omega)
  obtain ⟨i, hi, hbit⟩ := Nat.ge_two_pow_implies_high_bit_true hge
  have hlt : i < n.size := by
    by_contra hcon
    have hlt2 : n < 2 ^ i :=
      lt_of_lt_of_le (Nat.lt_size_self n) (Nat.pow_le_pow_right (by norm_num) (by omega))
    rw [Nat.testBit_lt_two_pow hlt2] at hbit
    exact Bool.false_ne_true hbit
  have hi2 : i = n.size - 1 := by omega
  rw [← hi2]
  exact hbit

theorem testBit_of_size_le {n i : Nat} (h : n.size ≤ i) : n.testBit i = false :=
  Nat.testBit_lt_two_pow (Nat.size_le.1 h)

/-- The test `less_msb x y` holds exactly when the highest set bit of `y` lies
above every set bit of `x`, that is when `x` has fewer significant bits. -/
theorem less_msb_iff_size (x y : Nat) : less_msb x y = true ↔ x.size < y.size := by
  unfold less_msb
  simp only [Bool.and_eq_true, decide_eq_true_eq]
  constructor
  · rintro ⟨hxy, hxx⟩
    by_contra hcon
    have hle := Nat.size_le_size hxy.le
    have heq : x.size = y.size := by omega
    have hy : 0 < y := by omega
    have hsy : 0 < y.size := Nat.size_pos.2 hy
    have hx : 0 < x := Nat.size_pos.1 (by omega)
    have hxge : 2 ^ (y.size - 1) ≤ x := Nat.lt_size.1 (by omega)
    have hlt : x ^^^ y < 2 ^ (y.size - 1) := by
      apply Nat.lt_pow_two_of_testBit
      intro i hi
      rw [Nat.testBit_xor]
      by_cases h : i = y.size - 1
      · have h1 := testBit_size_pred hx
        have h2 := testBit_size_pred hy
        rw [heq] at h1
        rw [h, h1, h2]
        rfl
      · have h1 : x.testBit i = false := testBit_of_size_le (by omega)
        have h2 : y.testBit i = false := testBit_of_size_le (by omega)
        rw [h1, h2]
        rfl
    omega
  · intro h
    have hsy : 0 < y.size := by omega
    have hy : 0 < y := Nat.size_pos.1 hsy
    have hxlt : x < 2 ^ (y.size - 1) :=
      lt_of_lt_of_le (Nat.lt_size_self x) (Nat.pow_le_pow_right (by norm_num) (by omega))
    have hyge : 2 ^ (y.size - 1) ≤ y := Nat.lt_size.1 (by omega)
    refine ⟨by omega, ?_⟩
    have hbit : (x ^^^ y).testBit (y.size - 1) = true := by
      rw [Nat.testBit_xor, testBit_size_pred hy, Nat.testBit_lt_two_pow hxlt]
      rfl
    have := Nat.testBit_implies_ge hbit
    omega

/-! ## The reduction loop picks the first column with the highest differing bit -/

theorem compare_loop_dominates (U : UType) (schema : Schema) (lhs rhs : Row) (n : Nat) :
    ∀ (k j : Nat), dominates U schema lhs rhs j k →
      ∃ j2, dominates U schema lhs rhs j2 (k + n) ∧
        compare_loop U schema lhs rhs k n (rep U schema lhs j) (rep U schema rhs j)
          = (rep U schema lhs j2, rep U schema rhs j2) := by
  induction n with
  | zero =>
    intro k j hj
    exact ⟨j, hj, rfl⟩
  | succ n ih =>
    intro k j hj
    obtain ⟨hjk, hmax, hfirst⟩ := hj
    unfold compare_loop
    simp only
    by_cases hless : less_msb (rep U schema lhs j ^^^ rep U schema rhs j)
        (get_shared_representation U (lhs.val k) (schema.column k) ^^^
          get_shared_representation U (rhs.val k) (schema.column k)) = true
    · rw [if_pos hless]
      have hlt : diff_size U schema lhs rhs j < diff_size U schema lhs rhs k :=
        (less_msb_iff_size _ _).1 hless
      have hdom : dominates U schema lhs rhs k (k + 1) := by
        refine ⟨by omega, ?_, ?_⟩
        · intro i hi
          by_cases hik : i = k
          · rw [hik]
          · exact le_of_lt (lt_of_le_of_lt (hmax i (by omega)) hlt)
        · intro i hi
          exact lt_of_le_of_lt (hmax i hi) hlt
      obtain ⟨j2, hj2, heq⟩ := ih (k + 1) k hdom
      refine ⟨j2, ?_, heq⟩
      have : k + (n + 1) = k + 1 + n := by omega
      rw [this]
      exact hj2
    · rw [if_neg hless]
      have hge : ¬ diff_size U schema lhs rhs j < diff_size U schema lhs rhs k :=
        fun h => hless ((less_msb_iff_size _ _).2 h)
      have hdom : dominates U schema lhs rhs j (k + 1) := by
        refine ⟨by omega, ?_, hfirst⟩
        intro i hi
        by_cases hik : i = k
        · rw [hik]
          omega
        · exact hmax i (by omega)
      obtain ⟨j2, hj2, heq⟩ := ih (k + 1) j hdom
      refine ⟨j2, ?_, heq⟩
      have : k + (n + 1) = k + 1 + n := by omega
      rw [this]
      exact hj2

/-! ## Comparing Morton codes -/

theorem foldl_bits_init (bits : List Bool) (a : Nat) :
    bits.foldl (fun acc b => 2 * acc + b.toNat) a
      = a * 2 ^ bits.length + bits.foldl (fun acc b => 2 * acc + b.toNat) 0 := by
  induction bits generalizing a with
  | nil => simp
  | cons b bs ih =>
    simp only [List.foldl_cons, List.length_cons]
    rw [ih (2 * a + b.toNat), ih (2 * 0 + b.toNat)]
    ring

theorem bits_value_append (xs ys : List Bool) :
    bits_value (xs ++ ys) = bits_value xs * 2 ^ ys.length + bits_value ys := by
  unfold bits_value
  rw [List.foldl_append, foldl_bits_init]

theorem bits_value_cons (b : Bool) (bs : List Bool) :
    bits_value (b :: bs) = b.toNat * 2 ^ bs.length + bits_value bs := by
  unfold bits_value
  rw [List.foldl_cons, foldl_bits_init]
  simp

theorem bits_value_lt (bits : List Bool) : bits_value bits < 2 ^ bits.length := by
  induction bits with
  | nil => simp [bits_value]
  | cons b bs ih =>
    rw [bits_value_cons, List.length_cons, pow_succ]
    have hb : b.toNat ≤ 1 := Bool.toNat_le b
    have hp := Nat.two_pow_pos bs.length
    nlinarith

/-- Two bit strings of one length that agree up to a position where the first
has 0 and the second has 1: the first writes the smaller number. -/
theorem bits_value_lt_of_first_diff (p s1 s2 : List Bool) (h : s1.length = s2.length) :
    bits_value (p ++ false :: s1) < bits_value (p ++ true :: s2) := by
  rw [bits_value_append, bits_value_append, bits_value_cons, bits_value_cons]
  simp only [List.length_cons, Bool.toNat_false, Bool.toNat_true, zero_mul, zero_add, one_mul, h]
  have := bits_value_lt s1
  rw [h] at this
  omega

theorem morton_bits_length (w : Nat) (cols : List Nat) :
    (morton_bits w cols).length = w * cols.length := by
  induction w with
  | zero => simp [morton_bits]
  | succ w ih =>
    simp only [morton_bits, List.length_append, List.length_map, ih]
    ring

theorem level_eq_of_testBit_eq (L R : Nat → Nat) (n b : Nat)
    (h : ∀ i, i < n → (L i).testBit b = (R i).testBit b) :
    ((List.range n).map L).map (fun c => c.testBit b)
      = ((List.range n).map R).map (fun c => c.testBit b) := by
  rw [List.map_map, List.map_map]
  apply List.map_congr_left
  intro i hi
  exact h i (List.mem_range.1 hi)

theorem morton_bits_common_prefix (L R : Nat → Nat) (n s : Nat)
    (h : ∀ b, s < b → ∀ i, i < n → (L i).testBit b = (R i).testBit b) (w : Nat) (hw : s + 1 ≤ w) :
    ∃ p, morton_bits w ((List.range n).map L) = p ++ morton_bits (s + 1) ((List.range n).map L) ∧
      morton_bits w ((List.range n).map R) = p ++ morton_bits (s + 1) ((List.range n).map R) := by
  induction w, hw using Nat.le_induction with
  | base => exact ⟨[], rfl, rfl⟩
  | succ w hw ih =>
    obtain ⟨p, hl, hr⟩ := ih
    refine ⟨((List.range n).map L).map (fun c => c.testBit w) ++ p, ?_, ?_⟩
    · rw [morton_bits, hl, List.append_assoc]
    · rw [morton_bits, hr, List.append_assoc, level_eq_of_testBit_eq L R n w (h w (by omega))]

theorem map_range_split (g : Nat → Bool) (n j : Nat) (hj : j < n) :
    (List.range n).map g
      = (List.range j).map g ++ g j :: ((List.range n).map g).drop (j + 1) := by
  have hlen : j < ((List.range n).map g).length := by simp [hj]
  calc (List.range n).map g
      = ((List.range n).map g).take j ++ ((List.range n).map g).drop j :=
        (List.take_append_drop j _).symm
    _ = (List.range j).map g ++ g j :: ((List.range n).map g).drop (j + 1) := by
        rw [List.drop_eq_getElem_cons hlen, ← List.map_take, List.take_range,
          Nat.min_eq_left hj.le]
        simp

/-- The Morton code of the columns `L 0, ..., L (n-1)` is below that of
`R 0, ..., R (n-1)` when the two agree on every bit level above `s`, agree at
level `s` on the columns before `j`, and column `j` has bit `s` clear on the
left and set on the right. -/
theorem morton_code_lt (L R : Nat → Nat) (n j s w : Nat) (hj : j < n) (hs : s < w)
    (hhigh : ∀ b, s < b → ∀ i, i < n → (L i).testBit b = (R i).testBit b)
    (hpre : ∀ i, i < j → (L i).testBit s = (R i).testBit s)
    (hl : (L j).testBit s = false) (hr : (R j).testBit s = true) :
    morton_code w ((List.range n).map L) < morton_code w ((List.range n).map R) := by
  obtain ⟨p, hpl, hpr⟩ := morton_bits_common_prefix L R n s hhigh w (by omega)
  unfold morton_code
  rw [hpl, hpr, morton_bits, morton_bits, List.map_map, List.map_map,
    map_range_split ((fun c => c.testBit s) ∘ L) n j hj,
    map_range_split ((fun c => c.testBit s) ∘ R) n j hj]
  have hpre2 : (List.range j).map ((fun c => c.testBit s) ∘ L)
      = (List.range j).map ((fun c => c.testBit s) ∘ R) := by
    apply List.map_congr_left
    intro i hi
    exact hpre i (List.mem_range.1 hi)
  rw [hpre2]
  simp only [Function.comp, hl, hr, List.append_assoc, List.cons_append]
  rw [← List.append_assoc p, ← List.append_assoc p]
  apply bits_value_lt_of_first_diff
  simp [morton_bits_length]

/-! ## Every shared representation fits the width -/

theorem static_cast_lt (U : UType) (v : Int) : static_cast U v < 2 ^ U.bits := by
  unfold static_cast
  have hpos : (0 : Int) < 2 ^ U.bits := by positivity
  have h1 := Int.emod_nonneg v (ne_of_gt hpos)
  have h2 := Int.emod_lt_of_pos v hpos
  rw [Int.toNat_lt h1]
  push_cast
  exact h2

theorem shl_lt (U : UType) (x s : Nat) : shl U x s < 2 ^ U.bits :=
  Nat.mod_lt _ (by positivity)

theorem mask_lt (U : UType) : mask U < 2 ^ U.bits := shl_lt U _ _

theorem get_shared_int_representation_lt (U : UType) (sizeof_T : Nat) (val : Int) (m : Nat)
    (hm : m < 2 ^ U.bits) : get_shared_int_representation U sizeof_T val m < 2 ^ U.bits :=
  Nat.xor_lt_two_pow (shl_lt U _ _) hm

theorem get_shared_float_representation_lt (U : UType) (sizeof_T : Nat) (val : Payload) (m : Nat)
    (tmp0 : Int) (hm : m < 2 ^ U.bits) :
    get_shared_float_representation U sizeof_T val m tmp0 < 2 ^ U.bits := by
  unfold get_shared_float_representation
  simp only
  split_ifs
  · positivity
  · exact shl_lt U _ _
  · exact Nat.xor_lt_two_pow (shl_lt U _ _) hm

theorem get_shared_string_representation_lt (U : UType) (char_ptr : List Byte) (length : Nat) :
    get_shared_string_representation U char_ptr length < 2 ^ U.bits := by
  unfold get_shared_string_representation
  simp only
  split_ifs <;> first | positivity | exact shl_lt U _ _

theorem get_shared_representation_lt (U : UType) (val : Option Payload) (type : FieldType) :
    get_shared_representation U val type < 2 ^ U.bits := by
  have h0 : (0 : Nat) < 2 ^ U.bits := by positivity
  have hz : static_cast U 0 < 2 ^ U.bits := static_cast_lt U 0
  cases val with
  | none => exact h0
  | some v =>
    cases type <;> unfold get_shared_representation <;> dsimp only <;>
      first
      | with_reducible exact h0
      | with_reducible exact get_shared_int_representation_lt U _ _ _ hz
      | with_reducible exact get_shared_int_representation_lt U _ _ _ (mask_lt U)
      | with_reducible exact get_shared_float_representation_lt U _ _ _ _ (mask_lt U)
      | with_reducible exact get_shared_string_representation_lt U _ _
      | with_reducible exact Nat.xor_lt_two_pow (static_cast_lt U _) (mask_lt U)
      | with_reducible exact shl_lt U _ _

theorem rep_lt (U : UType) (schema : Schema) (row : Row) (i : Nat) :
    rep U schema row i < 2 ^ U.bits :=
  get_shared_representation_lt U _ _

/-! ## The comparator against the Morton codes -/

theorem three_way_self (a : Nat) : three_way a a = 0 := by simp [three_way]

theorem three_way_of_lt {a b : Nat} (h : a < b) : three_way a b = -1 := by simp [three_way, h]

theorem three_way_of_gt {a b : Nat} (h : b < a) : three_way a b = 1 := by
  have : ¬ a < b := by omega
  simp [three_way, h, this]

theorem testBit_eq_of_diff_size_le {x y b : Nat} (h : (x ^^^ y).size ≤ b) :
    x.testBit b = y.testBit b := by
  have := testBit_of_size_le h
  rw [Nat.testBit_xor] at this
  revert this
  cases x.testBit b <;> cases y.testBit b <;> simp

/-- When column `j` dominates the first `n` columns, the three-way comparison of
the Morton codes of the two rows is that of their representations at column `j`. -/
theorem three_way_morton_of_dominates (U : UType) (schema : Schema) (lhs rhs : Row) (n j : Nat)
    (hdom : dominates U schema lhs rhs j n) :
    three_way (morton_code U.bits ((List.range n).map (rep U schema lhs)))
        (morton_code U.bits ((List.range n).map (rep U schema rhs)))
      = three_way (rep U schema lhs j) (rep U schema rhs j) := by
  obtain ⟨hjn, hmax, hfirst⟩ := hdom
  by_cases hzero : diff_size U schema lhs rhs j = 0
  · have hall : ∀ i, i < n → rep U schema lhs i = rep U schema rhs i := by
      intro i hi
      have h1 := hmax i hi
      rw [hzero] at h1
      have h2 : diff_size U schema lhs rhs i = 0 := by omega
      exact Nat.xor_eq_zero.1 (Nat.size_eq_zero.1 h2)
    have hcols : (List.range n).map (rep U schema lhs) = (List.range n).map (rep U schema rhs) := by
      apply List.map_congr_left
      intro i hi
      exact hall i (List.mem_range.1 hi)
    rw [hcols, hall j hjn, three_way_self, three_way_self]
  · have hpos : 0 < rep U schema lhs j ^^^ rep U schema rhs j := by
      rcases Nat.eq_zero_or_pos (rep U schema lhs j ^^^ rep U schema rhs j) with h | h
      · exact absurd (Nat.size_eq_zero.2 h) hzero
      · exact h
    have hbit := testBit_size_pred hpos
    have hsle : diff_size U schema lhs rhs j ≤ U.bits :=
      Nat.size_le.2 (Nat.xor_lt_two_pow (rep_lt U schema lhs j) (rep_lt U schema rhs j))
    have hhigh : ∀ b, diff_size U schema lhs rhs j - 1 < b → ∀ i, i < n →
        (rep U schema lhs i).testBit b = (rep U schema rhs i).testBit b := by
      intro b hb i hi
      apply testBit_eq_of_diff_size_le
      have := hmax i hi
      unfold diff_size at this hb
      omega
    have hpre : ∀ i, i < j → (rep U schema lhs i).testBit (diff_size U schema lhs rhs j - 1)
        = (rep U schema rhs i).testBit (diff_size U schema lhs rhs j - 1) := by
      intro i hi
      apply testBit_eq_of_diff_size_le
      have := hfirst i hi
      unfold diff_size at this ⊢
      omega
    have hs : diff_size U schema lhs rhs j - 1 < U.bits := by omega
    rw [Nat.testBit_xor] at hbit
    change ((rep U schema lhs j).testBit (diff_size U schema lhs rhs j - 1) ^^
      (rep U schema rhs j).testBit (diff_size U schema lhs rhs j - 1)) = true at hbit
    cases hl : (rep U schema lhs j).testBit (diff_size U schema lhs rhs j - 1) <;>
      cases hr : (rep U schema rhs j).testBit (diff_size U schema lhs rhs j - 1)
    · rw [hl, hr] at hbit
      exact absurd hbit (by decide)
    · have h1 : rep U schema lhs j < rep U schema rhs j :=
        Nat.lt_of_testBit _ hl hr (fun b hb => hhigh b hb j hjn)
      have h2 := morton_code_lt (rep U schema lhs) (rep U schema rhs) n j _ U.bits hjn hs
        hhigh hpre hl hr
      rw [three_way_of_lt h1, three_way_of_lt h2]
    · have h1 : rep U schema rhs j < rep U schema lhs j :=
        Nat.lt_of_testBit _ hr hl (fun b hb => (hhigh b hb j hjn).symm)
      have h2 := morton_code_lt (rep U schema rhs) (rep U schema lhs) n j _ U.bits hjn hs
        (fun b hb i hi => (hhigh b hb i hi).symm) (fun i hi => (hpre i hi).symm) hr hl
      rw [three_way_of_gt h1, three_way_of_gt h2]
    · rw [hl, hr] at hbit
      exact absurd hbit (by decide)

/-- The value `compare_based_on_size` returns is the three-way comparison of the
representations at the column that dominates the sort columns. -/
theorem compare_based_on_size_dominant (self : RowCurosrZOrderComparator) (U : UType)
    (schema : Schema) (lhs rhs : Row) (hN : 1 ≤ self._sort_col_num) :
    ∃ j, dominates U schema lhs rhs j self._sort_col_num.toNat ∧
      self.compare_based_on_size U schema lhs rhs
        = three_way (rep U schema lhs j) (rep U schema rhs j) := by
  have hdom0 : dominates U schema lhs rhs 0 1 := by
    refine ⟨by omega, ?_, ?_⟩
    · intro i hi
      have : i = 0 := by omega
      rw [this]
    · intro i hi
      omega
  obtain ⟨j, hj, heq⟩ :=
    compare_loop_dominates U schema lhs rhs (self._sort_col_num - 1).toNat 1 0 hdom0
  have hn : 1 + (self._sort_col_num - 1).toNat = self._sort_col_num.toNat := by omega
  rw [hn] at hj
  refine ⟨j, hj, ?_⟩
  unfold RowCurosrZOrderComparator.compare_based_on_size
  simp only
  unfold rep at heq
  rw [heq]
  rfl

theorem compare_based_on_size_eq_morton (self : RowCurosrZOrderComparator) (U : UType)
    (schema : Schema) (lhs rhs : Row) (hN : 1 ≤ self._sort_col_num) :
    self.compare_based_on_size U schema lhs rhs
      = three_way (morton_code U.bits (encoded_columns U schema self._sort_col_num.toNat lhs))
          (morton_code U.bits (encoded_columns U schema self._sort_col_num.toNat rhs)) := by
  obtain ⟨j, hj, heq⟩ := compare_based_on_size_dominant self U schema lhs rhs hN
  rw [heq]
  exact (three_way_morton_of_dominates U schema lhs rhs _ j hj).symm

theorem three_way_neg (a b : Nat) : three_way a b = -three_way b a := by
  unfold three_way
  split_ifs <;> first | rfl | omega

theorem three_way_cases (a b : Nat) :
    three_way a b = -1 ∨ three_way a b = 0 ∨ three_way a b = 1 := by
  unfold three_way
  split_ifs <;> simp

theorem three_way_eq_neg_one {a b : Nat} : three_way a b = -1 ↔ a < b := by
  unfold three_way
  split_ifs <;> simp_all

theorem three_way_eq_zero {a b : Nat} : three_way a b = 0 ↔ a = b := by
  rcases Nat.lt_trichotomy a b with h | h | h
  · rw [three_way_of_lt h]
    constructor
    · intro h2
      exact absurd h2 (by decide)
    · intro h2
      omega
  · rw [h, three_way_self]
    simp
  · rw [three_way_of_gt h]
    constructor
    · intro h2
      exact absurd h2 (by decide)
    · intro h2
      omega

/-- Only `_sort_col_num - 1` enters `compare_based_on_size`, cut off at 0: a count
below 1 behaves as the count 1. -/
theorem compare_based_on_size_clamp (self : RowCurosrZOrderComparator) (U : UType)
    (schema : Schema) (lhs rhs : Row) :
    self.compare_based_on_size U schema lhs rhs
      = RowCurosrZOrderComparator.compare_based_on_size
          { self with _sort_col_num := max 1 self._sort_col_num } U schema lhs rhs := by
  unfold RowCurosrZOrderComparator.compare_based_on_size
  have h : (self._sort_col_num - 1).toNat = (max 1 self._sort_col_num - 1).toNat := by omega
  simp only [h]

theorem compare_based_on_size_eq_key (self : RowCurosrZOrderComparator) (U : UType)
    (schema : Schema) (lhs rhs : Row) :
    self.compare_based_on_size U schema lhs rhs
      = three_way (zorder_key self U schema lhs) (zorder_key self U schema rhs) := by
  rw [compare_based_on_size_clamp]
  exact compare_based_on_size_eq_morton _ U schema lhs rhs (le_max_left _ _)

theorem morton_code_lt_two_pow (w : Nat) (cols : List Nat) :
    morton_code w cols < 2 ^ (cols.length * w) := by
  have h := bits_value_lt (morton_bits w cols)
  rw [morton_bits_length, Nat.mul_comm] at h
  exact h

theorem encoded_columns_length (U : UType) (schema : Schema) (n : Nat) (row : Row) :
    (encoded_columns U schema n row).length = n := by
  simp [encoded_columns]

/-! ## The comparison contract -/

/-- C1. For a sort-column count `N ≥ 1`, each width `U` and any two rows,
`compare_based_on_size` returns the three-way comparison (-1, 0 or +1) of the
Morton codes of the two rows: the numbers of `N * bits U` bits that interleave the
bits of the `N` encoded columns from the most significant level down, the columns
in the order 0, 1, ..., N-1 within a level. -/
theorem C1_compare_based_on_size_is_morton_order (self : RowCurosrZOrderComparator) (U : UType)
    (schema : Schema) (lhs rhs : Row) (hN : 1 ≤ self._sort_col_num) :
    self.compare_based_on_size U schema lhs rhs
        = three_way (morton_code U.bits (encoded_columns U schema self._sort_col_num.toNat lhs))
            (morton_code U.bits (encoded_columns U schema self._sort_col_num.toNat rhs)) ∧
      morton_code U.bits (encoded_columns U schema self._sort_col_num.toNat lhs)
        < 2 ^ (self._sort_col_num.toNat * U.bits) ∧
      morton_code U.bits (encoded_columns U schema self._sort_col_num.toNat rhs)
        < 2 ^ (self._sort_col_num.toNat * U.bits) := by
  refine ⟨compare_based_on_size_eq_morton self U schema lhs rhs hN, ?_, ?_⟩
  · have h := morton_code_lt_two_pow U.bits (encoded_columns U schema self._sort_col_num.toNat lhs)
    rw [encoded_columns_length] at h
    exact h
  · have h := morton_code_lt_two_pow U.bits (encoded_columns U schema self._sort_col_num.toNat rhs)
    rw [encoded_columns_length] at h
    exact h

/-- Witness of C1: two `INT` columns, `N = 2`, the rows `(2, 2)` and `(1, 3)` at 32 bits. -/
theorem C1_compare_based_on_size_is_morton_order_witness :
    (RowCurosrZOrderComparator.new
        (Schema.of_list [.OLAP_FIELD_TYPE_INT, .OLAP_FIELD_TYPE_INT]) 2).compare_based_on_size
        .uint32_t (Schema.of_list [.OLAP_FIELD_TYPE_INT, .OLAP_FIELD_TYPE_INT])
        (Row.of_scalars [2, 2]) (Row.of_scalars [1, 3])
      = three_way
          (morton_code 32 (encoded_columns .uint32_t
            (Schema.of_list [.OLAP_FIELD_TYPE_INT, .OLAP_FIELD_TYPE_INT]) 2 (Row.of_scalars [2, 2])))
          (morton_code 32 (encoded_columns .uint32_t
            (Schema.of_list [.OLAP_FIELD_TYPE_INT, .OLAP_FIELD_TYPE_INT]) 2 (Row.of_scalars [1, 3]))) :=
  (C1_compare_based_on_size_is_morton_order
    (RowCurosrZOrderComparator.new (Schema.of_list [.OLAP_FIELD_TYPE_INT, .OLAP_FIELD_TYPE_INT]) 2)
    .uint32_t (Schema.of_list [.OLAP_FIELD_TYPE_INT, .OLAP_FIELD_TYPE_INT])
    (Row.of_scalars [2, 2]) (Row.of_scalars [1, 3]) (by decide)).1

/-- C2. For a fixed schema, sort-column count `N ≥ 1` and width, the relation
`compare(a, b) = -1` is a strict weak ordering on rows: it is irreflexive and
transitive, and the induced equivalence `compare(a, b) = 0` is transitive. Stated
for `compare_based_on_size` at any width and for `compare`, which selects one. -/
theorem C2_compare_strict_weak_ordering (self : RowCurosrZOrderComparator) (U : UType)
    (schema : Schema) (hN : 1 ≤ self._sort_col_num) :
    ((∀ a, self.compare_based_on_size U schema a a ≠ -1) ∧
      (∀ a b c, self.compare_based_on_size U schema a b = -1 →
        self.compare_based_on_size U schema b c = -1 →
        self.compare_based_on_size U schema a c = -1) ∧
      (∀ a b c, self.compare_based_on_size U schema a b = 0 →
        self.compare_based_on_size U schema b c = 0 →
        self.compare_based_on_size U schema a c = 0)) ∧
    ((∀ a, self.compare a a ≠ -1) ∧
      (∀ a b c, self.compare a b = -1 → self.compare b c = -1 → self.compare a c = -1) ∧
      (∀ a b c, self.compare a b = 0 → self.compare b c = 0 → self.compare a c = 0)) := by
  have key : ∀ (V : UType) (sch : Schema),
      (∀ a, self.compare_based_on_size V sch a a ≠ -1) ∧
      (∀ a b c, self.compare_based_on_size V sch a b = -1 →
        self.compare_based_on_size V sch b c = -1 →
        self.compare_based_on_size V sch a c = -1) ∧
      (∀ a b c, self.compare_based_on_size V sch a b = 0 →
        self.compare_based_on_size V sch b c = 0 →
        self.compare_based_on_size V sch a c = 0) := by
    intro V sch
    refine ⟨?_, ?_, ?_⟩
    · intro a
      rw [compare_based_on_size_eq_morton self V sch a a hN, three_way_self]
      decide
    · intro a b c hab hbc
      rw [compare_based_on_size_eq_morton self V sch _ _ hN, three_way_eq_neg_one] at hab hbc ⊢
      exact lt_trans hab hbc
    · intro a b c hab hbc
      rw [compare_based_on_size_eq_morton self V sch _ _ hN, three_way_eq_zero] at hab hbc ⊢
      exact hab.trans hbc
  exact ⟨key U schema, key (select_U self._max_col_size) self._schema⟩

/-- Witness of C2: two `INT` columns, `N = 2`, and the rows `(0, 1)`, `(1, 0)`,
`(1, 3)`, each below the next. -/
theorem C2_compare_strict_weak_ordering_witness :
    (RowCurosrZOrderComparator.new
        (Schema.of_list [.OLAP_FIELD_TYPE_INT, .OLAP_FIELD_TYPE_INT]) 2).compare
        (Row.of_scalars [0, 1]) (Row.of_scalars [1, 0]) = -1 ∧
      (RowCurosrZOrderComparator.new
        (Schema.of_list [.OLAP_FIELD_TYPE_INT, .OLAP_FIELD_TYPE_INT]) 2).compare
        (Row.of_scalars [1, 0]) (Row.of_scalars [1, 3]) = -1 ∧
      (RowCurosrZOrderComparator.new
        (Schema.of_list [.OLAP_FIELD_TYPE_INT, .OLAP_FIELD_TYPE_INT]) 2).compare
        (Row.of_scalars [0, 1]) (Row.of_scalars [1, 3]) = -1 :=
  ⟨by decide, by decide,
    (C2_compare_strict_weak_ordering
      (RowCurosrZOrderComparator.new (Schema.of_list [.OLAP_FIELD_TYPE_INT, .OLAP_FIELD_TYPE_INT]) 2)
      .uint32_t (Schema.of_list [.OLAP_FIELD_TYPE_INT, .OLAP_FIELD_TYPE_INT]) (by decide)).2.2.1
      (Row.of_scalars [0, 1]) (Row.of_scalars [1, 0]) (Row.of_scalars [1, 3])
      (by decide) (by decide)⟩

/-- C3. For every two rows, any sort-column count and any width,
`compare(a, b) = -compare(b, a)` and the result is one of -1, 0, +1. Stated for
`compare_based_on_size` at any width and for `compare`, which selects one. -/
theorem C3_compare_antisymmetric (self : RowCurosrZOrderComparator) (U : UType)
    (schema : Schema) (a b : Row) :
    (self.compare_based_on_size U schema a b = -self.compare_based_on_size U schema b a ∧
      (self.compare_based_on_size U schema a b = -1 ∨ self.compare_based_on_size U schema a b = 0 ∨
        self.compare_based_on_size U schema a b = 1)) ∧
    (self.compare a b = -self.compare b a ∧
      (self.compare a b = -1 ∨ self.compare a b = 0 ∨ self.compare a b = 1)) := by
  have key : ∀ (V : UType) (sch : Schema),
      self.compare_based_on_size V sch a b = -self.compare_based_on_size V sch b a ∧
      (self.compare_based_on_size V sch a b = -1 ∨ self.compare_based_on_size V sch a b = 0 ∨
        self.compare_based_on_size V sch a b = 1) := by
    intro V sch
    rw [compare_based_on_size_eq_key self V sch a b, compare_based_on_size_eq_key self V sch b a]
    exact ⟨three_way_neg _ _, three_way_cases _ _⟩
  exact ⟨key U schema, key (select_U self._max_col_size) self._schema⟩

/-- C4. For `N ≥ 1`, `compare(a, b)` is 0 exactly when the shared representations
of the cells of `a` and `b` are equal at every column `i < N`; and
`compare(r, r) = 0` for every row `r`. Stated for `compare_based_on_size` at any
width and for `compare`, which selects one. -/
theorem C4_compare_zero_iff_all_equal (self : RowCurosrZOrderComparator) (U : UType)
    (schema : Schema) (hN : 1 ≤ self._sort_col_num) :
    ((∀ a b, self.compare_based_on_size U schema a b = 0 ↔
        ∀ i : Nat, (i : Int) < self._sort_col_num →
          get_shared_representation U (a.val i) (schema.column i)
            = get_shared_representation U (b.val i) (schema.column i)) ∧
      (∀ r, self.compare_based_on_size U schema r r = 0)) ∧
    ((∀ a b, self.compare a b = 0 ↔
        ∀ i : Nat, (i : Int) < self._sort_col_num →
          get_shared_representation (select_U self._max_col_size) (a.val i) (self._schema.column i)
            = get_shared_representation (select_U self._max_col_size) (b.val i)
                (self._schema.column i)) ∧
      (∀ r, self.compare r r = 0)) := by
  have key : ∀ (V : UType) (sch : Schema),
      (∀ a b, self.compare_based_on_size V sch a b = 0 ↔
        ∀ i : Nat, (i : Int) < self._sort_col_num →
          get_shared_representation V (a.val i) (sch.column i)
            = get_shared_representation V (b.val i) (sch.column i)) ∧
      (∀ r, self.compare_based_on_size V sch r r = 0) := by
    intro V sch
    have hiff : ∀ a b, self.compare_based_on_size V sch a b = 0 ↔
        ∀ i : Nat, (i : Int) < self._sort_col_num →
          get_shared_representation V (a.val i) (sch.column i)
            = get_shared_representation V (b.val i) (sch.column i) := by
      intro a b
      obtain ⟨j, ⟨hjn, hmax, _⟩, heq⟩ := compare_based_on_size_dominant self V sch a b hN
      rw [heq, three_way_eq_zero]
      constructor
      · intro hj i hi
        have h1 := hmax i (by omega)
        have h2 : diff_size V sch a b j = 0 := by
          unfold diff_size
          rw [hj, Nat.xor_self]
          exact Nat.size_zero
        rw [h2] at h1
        exact Nat.xor_eq_zero.1 (Nat.size_eq_zero.1 (Nat.le_zero.1 h1))
      · intro hall
        exact hall j (by omega)
    refine ⟨hiff, ?_⟩
    intro r
    exact (hiff r r).2 (fun _ _ => rfl)
  exact ⟨key U schema, key (select_U self._max_col_size) self._schema⟩

/-- Witness of C4: two `INT` columns, `N = 2`; the row `(2, 2)` compares equal to
itself. -/
theorem C4_compare_zero_iff_all_equal_witness :
    (1 : Int) ≤ (RowCurosrZOrderComparator.new
        (Schema.of_list [.OLAP_FIELD_TYPE_INT, .OLAP_FIELD_TYPE_INT]) 2)._sort_col_num ∧
      (RowCurosrZOrderComparator.new
        (Schema.of_list [.OLAP_FIELD_TYPE_INT, .OLAP_FIELD_TYPE_INT]) 2).compare
        (Row.of_scalars [2, 2]) (Row.of_scalars [2, 2]) = 0 :=
  ⟨by decide,
    (C4_compare_zero_iff_all_equal
      (RowCurosrZOrderComparator.new (Schema.of_list [.OLAP_FIELD_TYPE_INT, .OLAP_FIELD_TYPE_INT]) 2)
      .uint32_t (Schema.of_list [.OLAP_FIELD_TYPE_INT, .OLAP_FIELD_TYPE_INT]) (by decide)).2.2
      (Row.of_scalars [2, 2])⟩

/-! ## Integer columns -/

theorem xor_two_pow_of_lt {x k : Nat} (h : x < 2 ^ k) : x ^^^ 2 ^ k = x + 2 ^ k := by
  apply Nat.eq_of_testBit_eq
  intro i
  rw [Nat.testBit_xor, Nat.add_comm]
  rcases Nat.lt_trichotomy i k with hi | hi | hi
  · rw [Nat.testBit_two_pow_add_gt hi, Nat.testBit_two_pow_of_ne (by omega)]
    simp
  · rw [hi, Nat.testBit_two_pow_add_eq, Nat.testBit_two_pow_self, Nat.testBit_lt_two_pow h]
    rfl
  · have h1 : x < 2 ^ i := lt_trans h (Nat.pow_lt_pow_right (by norm_num) hi)
    have h2 : 2 ^ k + x < 2 ^ i := by
      have : 2 ^ (k + 1) ≤ 2 ^ i := Nat.pow_le_pow_right (by norm_num) hi
      rw [pow_succ] at this
      omega
    rw [Nat.testBit_lt_two_pow h1, Nat.testBit_lt_two_pow h2, Nat.testBit_two_pow_of_ne (by omega)]
    rfl

theorem xor_two_pow_of_ge {x k : Nat} (h1 : 2 ^ k ≤ x) (h2 : x < 2 ^ (k + 1)) :
    x ^^^ 2 ^ k = x - 2 ^ k := by
  have hy : x - 2 ^ k < 2 ^ k := by
    rw [pow_succ] at h2
    omega
  have h := xor_two_pow_of_lt hy
  have hx : x - 2 ^ k + 2 ^ k = x := by omega
  rw [hx] at h
  calc x ^^^ 2 ^ k = (x - 2 ^ k ^^^ 2 ^ k) ^^^ 2 ^ k := by rw [h]
    _ = x - 2 ^ k := by rw [Nat.xor_assoc, Nat.xor_self, Nat.xor_zero]

/-- Flipping bit `k` of a number of at most `k + 1` bits adds or removes `2 ^ k`. -/
theorem xor_two_pow (x k : Nat) (h : x < 2 ^ (k + 1)) :
    x ^^^ 2 ^ k = if x < 2 ^ k then x + 2 ^ k else x - 2 ^ k := by
  split_ifs with hlt
  · exact xor_two_pow_of_lt hlt
  · exact xor_two_pow_of_ge (by omega) h

theorem mask_eq (U : UType) : mask U = 2 ^ (U.bits - 1) := by
  cases U <;> decide

theorem shift_size_eq (U : UType) (S : Nat) (hS : S ∈ [1, 2, 4, 8]) (hfit : 8 * S ≤ U.bits) :
    (max (to_signed 64 (size_diff_bits U S)) 0).toNat = U.bits - 8 * S := by
  simp only [List.mem_cons, List.mem_singleton, List.not_mem_nil, or_false] at hS
  cases U <;> rcases hS with rfl | rfl | rfl | rfl <;> decide

theorem to_signed_of_range (n : Nat) (hn : 0 < n) (v : Int) (hlo : -2 ^ (n - 1) ≤ v)
    (hhi : v < 2 ^ (n - 1)) : to_signed n v = v := by
  unfold to_signed
  have hpow : (2 : Int) ^ n = 2 * 2 ^ (n - 1) := by
    have : n = (n - 1) + 1 := by omega
    conv_lhs => rw [this, pow_succ]
    ring
  rw [Int.emod_eq_of_lt (by omega) (by omega)]
  ring

/-- Closed form of the signed branch: the value moved to the top `8 * S` bits with
its sign bit flipped. -/
theorem get_shared_int_representation_signed (U : UType) (S : Nat) (hS : S ∈ [1, 2, 4, 8])
    (hfit : 8 * S ≤ U.bits) (v : Int) (hlo : -2 ^ (8 * S - 1) ≤ v) (hhi : v < 2 ^ (8 * S - 1)) :
    (get_shared_int_representation U S v (mask U) : Int)
      = 2 ^ (U.bits - 1) + v * 2 ^ (U.bits - 8 * S) := by
  unfold get_shared_int_representation
  simp only
  have hbits : U.bits - 1 + 1 = U.bits := by cases U <;> decide
  have hb : shl U (static_cast U v) (U.bits - 8 * S) < 2 ^ (U.bits - 1 + 1) := by
    rw [hbits]
    exact shl_lt U _ _
  rw [shift_size_eq U S hS hfit, mask_eq, xor_two_pow _ _ hb]
  simp only [List.mem_cons, List.mem_singleton, List.not_mem_nil, or_false] at hS
  cases U <;> rcases hS with rfl | rfl | rfl | rfl <;>
    first
    | exact absurd hfit (by decide)
    | (simp only [shl, static_cast, UType.bits, UType.sizeof] at *
       norm_num at *
       split_ifs <;> omega)

/-- Closed form of the unsigned branch: the `8 * S`-bit value `v`, read through the
signed type of its size, moved to the top `8 * S` bits. -/
theorem get_shared_int_representation_unsigned (U : UType) (S : Nat) (hS : S ∈ [1, 2, 4, 8])
    (hfit : 8 * S ≤ U.bits) (v : Int) (hlo : 0 ≤ v) (hhi : v < 2 ^ (8 * S)) :
    (get_shared_int_representation U S (to_signed (8 * S) v) (static_cast U 0) : Int)
      = v * 2 ^ (U.bits - 8 * S) := by
  unfold get_shared_int_representation
  simp only
  have hz : static_cast U 0 = 0 := by simp [static_cast]
  rw [shift_size_eq U S hS hfit, hz, Nat.xor_zero]
  simp only [List.mem_cons, List.mem_singleton, List.not_mem_nil, or_false] at hS
  cases U <;> rcases hS with rfl | rfl | rfl | rfl <;>
    first
    | exact absurd hfit (by decide)
    | (simp only [shl, static_cast, to_signed, UType.bits, UType.sizeof] at *
       norm_num at *
       omega)

/-- Closed form of the `LARGEINT` branch at 128 bits. -/
theorem largeint_representation (v : Int) (hlo : -2 ^ 127 ≤ v) (hhi : v < 2 ^ 127) :
    ((static_cast .uint128_t (to_signed 128 v) ^^^ mask .uint128_t : Nat) : Int)
      = 2 ^ 127 + v := by
  have hb : static_cast .uint128_t (to_signed 128 v) < 2 ^ (127 + 1) :=
    static_cast_lt .uint128_t _
  rw [mask_eq, to_signed_of_range 128 (by norm_num) v hlo hhi]
  rw [to_signed_of_range 128 (by norm_num) v hlo hhi] at hb
  have h127 : UType.bits .uint128_t - 1 = 127 := by decide
  rw [h127, xor_two_pow _ _ hb]
  simp only [static_cast, UType.bits, UType.sizeof] at *
  norm_num at *
  split_ifs <;> omega

/-- Closed form for the signed integer types: the value is moved to the top
`8 * S` bits and `2 ^ (bits - 1)` is added, in exact arithmetic. -/
theorem signed_representation_closed_form (type : FieldType) (htype : type ∈ signed_integer_types)
    (U : UType) (hfit : 8 * byte_size type ≤ U.bits) (v : Int)
    (hlo : -2 ^ (8 * byte_size type - 1) ≤ v) (hhi : v < 2 ^ (8 * byte_size type - 1)) :
    (get_shared_representation U (some (.scalar v)) type : Int)
      = 2 ^ (U.bits - 1) + v * 2 ^ (U.bits - 8 * byte_size type) := by
  simp only [signed_integer_types, List.mem_cons, List.mem_singleton, List.not_mem_nil,
    or_false] at htype
  rcases htype with rfl | rfl | rfl | rfl | rfl
  · unfold get_shared_representation
    dsimp only [Payload.read_int]
    rw [to_signed_of_range 8 (by norm_num) v hlo hhi]
    exact get_shared_int_representation_signed U 1 (by decide) hfit v hlo hhi
  · unfold get_shared_representation
    dsimp only [Payload.read_int]
    rw [to_signed_of_range 16 (by norm_num) v hlo hhi]
    exact get_shared_int_representation_signed U 2 (by decide) hfit v hlo hhi
  · unfold get_shared_representation
    dsimp only [Payload.read_int]
    rw [to_signed_of_range 32 (by norm_num) v hlo hhi]
    exact get_shared_int_representation_signed U 4 (by decide) hfit v hlo hhi
  · unfold get_shared_representation
    dsimp only [Payload.read_int]
    rw [to_signed_of_range 64 (by norm_num) v hlo hhi]
    exact get_shared_int_representation_signed U 8 (by decide) hfit v hlo hhi
  · cases U
    · exact absurd hfit (by decide)
    · exact absurd hfit (by decide)
    · unfold get_shared_representation
      dsimp only [Payload.read_int]
      have h := largeint_representation v hlo hhi
      rw [h]
      have h1 : UType.bits .uint128_t - 1 = 127 := by decide
      have h2 : UType.bits .uint128_t - 8 * byte_size .OLAP_FIELD_TYPE_LARGEINT = 0 := by decide
      rw [h1, h2]
      ring

/-- C5. For a signed integer column type of byte size `S` (TINYINT, SMALLINT, INT,
BIGINT, LARGEINT), a width of at least `8 * S` bits and two non-null values
`a < b` of the type, the shared representation of `a` is strictly below that of
`b` as unsigned numbers. -/
theorem C5_signed_integer_encoding_strictly_monotone (type : FieldType)
    (htype : type ∈ signed_integer_types) (U : UType) (hfit : 8 * byte_size type ≤ U.bits)
    (a b : Int) (hlo : -2 ^ (8 * byte_size type - 1) ≤ a) (hab : a < b)
    (hhi : b < 2 ^ (8 * byte_size type - 1)) :
    get_shared_representation U (some (.scalar a)) type
      < get_shared_representation U (some (.scalar b)) type := by
  have ha := signed_representation_closed_form type htype U hfit a hlo (lt_trans hab hhi)
  have hb := signed_representation_closed_form type htype U hfit b (le_trans hlo hab.le) hhi
  have hpos : (0 : Int) < 2 ^ (U.bits - 8 * byte_size type) := by positivity
  have hmul : a * 2 ^ (U.bits - 8 * byte_size type) < b * 2 ^ (U.bits - 8 * byte_size type) :=
    mul_lt_mul_of_pos_right hab hpos
  have : (get_shared_representation U (some (.scalar a)) type : Int)
      < (get_shared_representation U (some (.scalar b)) type : Int) := by
    rw [ha, hb]
    omega
  exact_mod_cast this

/-- Witness of C5: the `TINYINT` values -1 and 0 at 32 bits. -/
theorem C5_signed_integer_encoding_strictly_monotone_witness :
    get_shared_representation .uint32_t (some (.scalar (-1))) .OLAP_FIELD_TYPE_TINYINT
      < get_shared_representation .uint32_t (some (.scalar 0)) .OLAP_FIELD_TYPE_TINYINT :=
  C5_signed_integer_encoding_strictly_monotone .OLAP_FIELD_TYPE_TINYINT (by decide) .uint32_t
    (by decide) (-1) 0 (by decide) (by decide) (by decide)

/-- The unsigned types the encoder has a case for are encoded as the value moved to
the top `8 * S` bits, with no other transformation. -/
theorem unsigned_representation_closed_form (type : FieldType)
    (htype : type ∈ [FieldType.OLAP_FIELD_TYPE_UNSIGNED_TINYINT,
      FieldType.OLAP_FIELD_TYPE_UNSIGNED_SMALLINT, FieldType.OLAP_FIELD_TYPE_UNSIGNED_BIGINT])
    (U : UType) (hfit : 8 * byte_size type ≤ U.bits) (v : Int)
    (hlo : 0 ≤ v) (hhi : v < 2 ^ (8 * byte_size type)) :
    (get_shared_representation U (some (.scalar v)) type : Int)
      = v * 2 ^ (U.bits - 8 * byte_size type) := by
  simp only [List.mem_cons, List.mem_singleton, List.not_mem_nil, or_false] at htype
  rcases htype with rfl | rfl | rfl
  · unfold get_shared_representation
    dsimp only [Payload.read_int]
    exact get_shared_int_representation_unsigned U 1 (by decide) hfit v hlo hhi
  · unfold get_shared_representation
    dsimp only [Payload.read_int]
    exact get_shared_int_representation_unsigned U 2 (by decide) hfit v hlo hhi
  · unfold get_shared_representation
    dsimp only [Payload.read_int]
    exact get_shared_int_representation_unsigned U 8 (by decide) hfit v hlo hhi

/-- C6 (the code departs from it). `get_shared_representation` has no case for
`OLAP_FIELD_TYPE_UNSIGNED_INT`, a 4-byte type for `get_type_byte_size`: its values
fall to the `default` arm and encode to 0 at every width, not to
`v * 2 ^ (bits - 32)`; the value 1 at 32 bits encodes to 0 instead of 1. -/
theorem C6_unsigned_int_falls_to_default :
    FieldType.OLAP_FIELD_TYPE_UNSIGNED_INT ∈ unsigned_integer_types ∧
    get_type_byte_size .OLAP_FIELD_TYPE_UNSIGNED_INT = 4 ∧
    (∀ (U : UType) (v : Int),
      get_shared_representation U (some (.scalar v)) .OLAP_FIELD_TYPE_UNSIGNED_INT = 0) ∧
    get_shared_representation .uint32_t (some (.scalar 1)) .OLAP_FIELD_TYPE_UNSIGNED_INT
      ≠ 1 * 2 ^ (UType.bits .uint32_t - 8 * 4) := by
  refine ⟨by decide, by decide, ?_, by decide⟩
  intro U v
  rfl

/-! ## String columns -/

theorem exists_cons_of_succ_le_length {α : Type} (l : List α) (n : Nat) (h : n + 1 ≤ l.length) :
    ∃ a t, l = a :: t ∧ n ≤ t.length := by
  cases l with
  | nil => simp at h
  | cons a t => exact ⟨a, t, rfl, by simpa using h⟩

/-- For a length from 1 to 16 the closed-form swaps write the first `len` source
bytes in reverse order at the start of the destination and leave its other bytes
as they were. -/
theorem ByteSwapScalar_eq (dest source : List Byte) (len : Nat) (h1 : 1 ≤ len) (h16 : len ≤ 16)
    (hd : len ≤ dest.length) (hs : len ≤ source.length) :
    ByteSwapScalar dest source len = (source.take len).reverse ++ dest.drop len := by
  interval_cases len <;>
    (repeat
      (obtain ⟨_, t, rfl, hd2⟩ := exists_cons_of_succ_le_length dest _ hd
       clear hd
       rename' t => dest, hd2 => hd)) <;>
    (repeat
      (obtain ⟨_, t, rfl, hs2⟩ := exists_cons_of_succ_le_length source _ hs
       clear hs
       rename' t => source, hs2 => hs)) <;>
    rfl

theorem le_value_append (xs ys : List Byte) :
    le_value (xs ++ ys) = le_value xs + 256 ^ xs.length * le_value ys := by
  induction xs with
  | nil => simp [le_value]
  | cons x xs ih =>
    rw [List.cons_append, le_value, ih, le_value, List.length_cons, pow_succ]
    ring

theorem le_value_replicate_zero (n : Nat) : le_value (List.replicate n (0 : Byte)) = 0 := by
  induction n with
  | zero => rfl
  | succ n ih => simp [List.replicate_succ, le_value, ih]

theorem le_value_reverse (s : List Byte) : le_value s.reverse = be_value s := by
  induction s with
  | nil => rfl
  | cons c s ih =>
    rw [List.reverse_cons, le_value_append, ih, List.length_reverse, be_value]
    simp only [le_value]
    ring

theorem be_value_lt (s : List Byte) : be_value s < 256 ^ s.length := by
  induction s with
  | nil => simp [be_value]
  | cons c s ih =>
    rw [be_value, List.length_cons, pow_succ]
    have hc : c.val < 256 := c.isLt
    nlinarith

theorem prefix_value_eq_be_value (k : Nat) (s : List Byte) :
    prefix_value k s = be_value (s.take k) * 256 ^ (k - (s.take k).length) := by
  induction k generalizing s with
  | zero => simp [prefix_value, be_value]
  | succ k ih =>
    cases s with
    | nil => simp [prefix_value, be_value]
    | cons c s =>
      rw [prefix_value, ih s, List.take_succ_cons, be_value, List.length_cons]
      have hlen : (s.take k).length ≤ k := by
        rw [List.length_take]
        exact Nat.min_le_left _ _
      have h1 : k + 1 - ((s.take k).length + 1) = k - (s.take k).length := by omega
      have h2 : 256 ^ k = 256 ^ (s.take k).length * 256 ^ (k - (s.take k).length) := by
        rw [← pow_add]
        congr 1
        omega
      rw [h1, h2]
      ring

theorem prefix_value_lt (k : Nat) (s : List Byte) : prefix_value k s < 256 ^ k := by
  induction k generalizing s with
  | zero => simp [prefix_value]
  | succ k ih =>
    cases s with
    | nil =>
      rw [prefix_value]
      positivity
    | cons c s =>
      rw [prefix_value, pow_succ]
      have hc : c.val < 256 := c.isLt
      have := ih s
      nlinarith

/-- The string encoder returns the big-endian number written by the first
`sizeof(U)` bytes of the string, padded with zero bytes. -/
theorem get_shared_string_representation_eq (U : UType) (s : List Byte) :
    get_shared_string_representation U s s.length = prefix_value U.sizeof s := by
  unfold get_shared_string_representation
  simp only
  have hsz : 1 ≤ U.sizeof ∧ U.sizeof ≤ 16 := by cases U <;> decide
  have hbits : 2 ^ U.bits = 256 ^ U.sizeof := by cases U <;> decide
  set len := if s.length < U.sizeof then s.length else U.sizeof with hlen
  have hlen_le : len ≤ U.sizeof := by
    rw [hlen]
    split_ifs <;> omega
  have hlen_s : len ≤ s.length := by
    rw [hlen]
    split_ifs <;> omega
  have htake : (s.take U.sizeof).length = len := by
    rw [List.length_take, hlen]
    split_ifs <;> omega
  have htake2 : s.take U.sizeof = s.take len := by
    rw [hlen]
    split_ifs with h
    · rw [List.take_of_length_le h.le, List.take_of_length_le le_rfl]
    · rfl
  by_cases h0 : len = 0
  · rw [if_pos h0, prefix_value_eq_be_value, htake2, h0]
    simp [be_value]
  · rw [if_neg h0, ByteSwapScalar_eq _ s len (by omega) (by omega) (by simpa using hlen_le) hlen_s,
      le_value_append, le_value_reverse, List.drop_replicate, le_value_replicate_zero,
      prefix_value_eq_be_value, htake, htake2]
    unfold shl
    have hpow : (U.sizeof - len) * 8 = 8 * (U.sizeof - len) := by ring
    rw [hpow, pow_mul, Nat.mul_zero, Nat.add_zero]
    norm_num
    apply Nat.mod_eq_of_lt
    rw [hbits]
    have hb := be_value_lt (s.take len)
    rw [List.length_take, Nat.min_eq_left hlen_s] at hb
    calc be_value (s.take len) * 256 ^ (U.sizeof - len)
        < 256 ^ len * 256 ^ (U.sizeof - len) :=
          Nat.mul_lt_mul_of_pos_right hb (by positivity)
      _ = 256 ^ U.sizeof := by
          rw [← pow_add]
          congr 1
          omega

theorem prefix_value_mono (k : Nat) (a b : List Byte) (h : lex_le a b) :
    prefix_value k a ≤ prefix_value k b := by
  induction k generalizing a b with
  | zero => simp [prefix_value]
  | succ k ih =>
    cases a with
    | nil =>
      rw [prefix_value]
      exact Nat.zero_le _
    | cons x xs =>
      cases b with
      | nil => exact absurd h (by simp [lex_le])
      | cons y ys =>
        rw [prefix_value, prefix_value]
        rcases h with hlt | ⟨heq, hrest⟩
        · have hx := prefix_value_lt k xs
          have hxy : x.val + 1 ≤ y.val := hlt
          have hmul : (x.val + 1) * 256 ^ k ≤ y.val * 256 ^ k := Nat.mul_le_mul_right _ hxy
          have hexp : (x.val + 1) * 256 ^ k = x.val * 256 ^ k + 256 ^ k := by ring
          omega
        · rw [heq]
          exact Nat.add_le_add_left (ih xs ys hrest) _

theorem prefix_value_take (k : Nat) (s : List Byte) :
    prefix_value k (s.take k) = prefix_value k s := by
  rw [prefix_value_eq_be_value, prefix_value_eq_be_value, List.take_take, Nat.min_self]

/-- C8. For byte strings `a ≤ b` in lexicographic order (bytes unsigned, a proper
prefix before its extensions) and every width, the string encoder gives
`encode(a) ≤ encode(b)`; and at 32 bits `encode("ab") < encode("abc")`. -/
theorem C8_string_encoding_monotone :
    (∀ (U : UType) (a b : List Byte), lex_le a b →
      get_shared_string_representation U a a.length
        ≤ get_shared_string_representation U b b.length) ∧
    get_shared_string_representation .uint32_t [97, 98] 2
      < get_shared_string_representation .uint32_t [97, 98, 99] 3 := by
  refine ⟨?_, by decide⟩
  intro U a b h
  rw [get_shared_string_representation_eq, get_shared_string_representation_eq]
  exact prefix_value_mono _ a b h

/-- Witness of C8: `"abc" ≤ "abd"` and the encodings at 64 bits. -/
theorem C8_string_encoding_monotone_witness :
    lex_le [97, 98, 99] [97, 98, 100] ∧
      get_shared_string_representation .uint64_t [97, 98, 99] ([97, 98, 99] : List Byte).length
        ≤ get_shared_string_representation .uint64_t [97, 98, 100]
            ([97, 98, 100] : List Byte).length :=
  ⟨by simp [lex_le],
    C8_string_encoding_monotone.1 .uint64_t [97, 98, 99] [97, 98, 100] (by simp [lex_le])⟩

/-- C9. For every width, two byte strings of at least `sizeof(U)` bytes with the
same first `sizeof(U)` bytes have the same encoding, so a comparator over that
single string column returns 0 on them; at 32 bits `encode("abcdef")` equals
`encode("abcdxx")`. -/
theorem C9_string_truncation :
    (∀ (U : UType) (a b : List Byte), U.sizeof ≤ a.length → U.sizeof ≤ b.length →
      a.take U.sizeof = b.take U.sizeof →
      get_shared_string_representation U a a.length
          = get_shared_string_representation U b b.length ∧
        ∀ (self : RowCurosrZOrderComparator) (schema : Schema) (lhs rhs : Row),
          self._sort_col_num = 1 →
          (schema.column 0 = .OLAP_FIELD_TYPE_CHAR ∨ schema.column 0 = .OLAP_FIELD_TYPE_VARCHAR) →
          lhs.cell 0 = { is_null := false, cell_ptr := .StringValue a } →
          rhs.cell 0 = { is_null := false, cell_ptr := .StringValue b } →
          self.compare_based_on_size U schema lhs rhs = 0) ∧
    get_shared_string_representation .uint32_t [97, 98, 99, 100, 101, 102] 6
      = get_shared_string_representation .uint32_t [97, 98, 99, 100, 120, 120] 6 := by
  refine ⟨?_, by decide⟩
  intro U a b _ _ hpre
  have henc : get_shared_string_representation U a a.length
      = get_shared_string_representation U b b.length := by
    rw [get_shared_string_representation_eq, get_shared_string_representation_eq,
      ← prefix_value_take _ a, ← prefix_value_take _ b, hpre]
  refine ⟨henc, ?_⟩
  intro self schema lhs rhs hN htype hl hr
  have hrep : get_shared_representation U (lhs.val 0) (schema.column 0)
      = get_shared_representation U (rhs.val 0) (schema.column 0) := by
    unfold Row.val
    rw [hl, hr]
    rcases htype with ht | ht <;> rw [ht] <;> exact henc
  unfold RowCurosrZOrderComparator.compare_based_on_size
  simp only
  rw [hN, hrep]
  simp [compare_loop]

/-- Witness of C9: `"abcdef"` and `"abcdxx"` as the only sort column at 32 bits. -/
theorem C9_string_truncation_witness :
    (RowCurosrZOrderComparator.new (Schema.of_list [.OLAP_FIELD_TYPE_VARCHAR]) 1).compare
        { cell := fun _ =>
            { is_null := false, cell_ptr := .StringValue [97, 98, 99, 100, 101, 102] } }
        { cell := fun _ =>
            { is_null := false, cell_ptr := .StringValue [97, 98, 99, 100, 120, 120] } } = 0 :=
  (C9_string_truncation.1 .uint32_t [97, 98, 99, 100, 101, 102] [97, 98, 99, 100, 120, 120]
    (by decide) (by decide) (by decide)).2
    (RowCurosrZOrderComparator.new (Schema.of_list [.OLAP_FIELD_TYPE_VARCHAR]) 1)
    (Schema.of_list [.OLAP_FIELD_TYPE_VARCHAR]) _ _ (by decide) (by decide) rfl rfl

/-! ## Floating-point columns -/

theorem to_signed_modEq (n : Nat) (z : Int) : to_signed n z ≡ z [ZMOD 2 ^ n] := by
  unfold to_signed
  have h1 : (z + 2 ^ (n - 1)) % 2 ^ n ≡ z + 2 ^ (n - 1) [ZMOD 2 ^ n] := Int.mod_modEq _ _
  have h2 := h1.sub_right (2 ^ (n - 1))
  simpa using h2

theorem shl_static_cast_congr (U : UType) (x y : Int) (s n : Nat) (hW : U.bits ≤ n + s)
    (h : x ≡ y [ZMOD 2 ^ n]) : shl U (static_cast U x) s = shl U (static_cast U y) s := by
  unfold shl static_cast
  have hpos : (0 : Int) < 2 ^ U.bits := by positivity
  have hx := Int.emod_nonneg x (ne_of_gt hpos)
  have hy := Int.emod_nonneg y (ne_of_gt hpos)
  have hdvd : (2 : Int) ^ U.bits ∣ 2 ^ n * 2 ^ s := by
    rw [← pow_add]
    exact pow_dvd_pow 2 hW
  have h1 : x * 2 ^ s ≡ y * 2 ^ s [ZMOD 2 ^ U.bits] :=
    Int.ModEq.of_dvd hdvd (Int.ModEq.mul_right' h)
  have h2 : (x % 2 ^ U.bits) * 2 ^ s ≡ (y % 2 ^ U.bits) * 2 ^ s [ZMOD 2 ^ U.bits] :=
    ((Int.mod_modEq x _).mul_right _).trans (h1.trans ((Int.mod_modEq y _).mul_right _).symm)
  have h3 : (((x % 2 ^ U.bits).toNat * 2 ^ s % 2 ^ U.bits : Nat) : Int)
      = (((y % 2 ^ U.bits).toNat * 2 ^ s % 2 ^ U.bits : Nat) : Int) := by
    push_cast
    rw [Int.toNat_of_nonneg hx, Int.toNat_of_nonneg hy]
    exact h2
  exact_mod_cast h3

theorem float_shift_covers (U : UType) (sizeof_T : Nat) (hT : sizeof_T = 4 ∨ sizeof_T = 8) :
    U.bits ≤ sizeof_T * 8 + (max (to_signed 32 (size_diff_bits U sizeof_T)) 0).toNat := by
  rcases hT with rfl | rfl <;> cases U <;> decide

/-- The bytes of `tmp` that `memcpy` leaves uninitialised never reach the result:
for `float` and `double` and every width they are shifted or truncated away. -/
theorem get_shared_float_representation_tmp_irrelevant (U : UType) (sizeof_T : Nat)
    (hT : sizeof_T = 4 ∨ sizeof_T = 8) (val : Payload) (m : Nat) (tmp0 : Int) :
    get_shared_float_representation U sizeof_T val m tmp0
      = get_shared_float_representation U sizeof_T val m 0 := by
  have hn : sizeof_T * 8 ≤ 64 := by rcases hT with rfl | rfl <;> decide
  have hdvd : (2 : Int) ^ (sizeof_T * 8) ∣ 2 ^ 64 := pow_dvd_pow 2 hn
  have htmp : ∀ t : Int,
      to_signed 64 ((t % 2 ^ 64) / 2 ^ (sizeof_T * 8) * 2 ^ (sizeof_T * 8)
        + val.read_float_bits (sizeof_T * 8))
      ≡ val.read_float_bits (sizeof_T * 8) [ZMOD 2 ^ (sizeof_T * 8)] := by
    intro t
    have h1 := Int.ModEq.of_dvd hdvd (to_signed_modEq 64
      ((t % 2 ^ 64) / 2 ^ (sizeof_T * 8) * 2 ^ (sizeof_T * 8)
        + val.read_float_bits (sizeof_T * 8)))
    refine h1.trans ?_
    have h2 : (t % 2 ^ 64) / 2 ^ (sizeof_T * 8) * 2 ^ (sizeof_T * 8) ≡ 0
        [ZMOD 2 ^ (sizeof_T * 8)] := by
      rw [Int.modEq_zero_iff_dvd]
      exact Dvd.intro_left _ rfl
    simpa using h2.add_right (val.read_float_bits (sizeof_T * 8) : Int)
  have hcong := (htmp tmp0).trans (htmp 0).symm
  have hcov := float_shift_covers U sizeof_T hT
  unfold get_shared_float_representation
  simp only
  split_ifs with hnan hneg
  · rfl
  · exact shl_static_cast_congr U _ _ _ _ hcov ((hcong.neg).sub_right 1)
  · rw [shl_static_cast_congr U _ _ _ _ hcov hcong]

theorem shl_static_cast_small (U : UType) (y n s : Nat) (hy : y < 2 ^ n)
    (hns : n + s = U.bits) : shl U (static_cast U (y : Int)) s = y * 2 ^ s := by
  unfold shl static_cast
  have hle : 2 ^ n ≤ 2 ^ U.bits := by
    rw [← hns]
    exact Nat.pow_le_pow_right (by norm_num) (by omega)
  have h1 : ((y : Int) % 2 ^ U.bits).toNat = y := by
    have : ((y : Int) % 2 ^ U.bits) = ((y % 2 ^ U.bits : Nat) : Int) := by push_cast; rfl
    rw [this, Int.toNat_natCast, Nat.mod_eq_of_lt (lt_of_lt_of_le hy hle)]
  rw [h1]
  apply Nat.mod_eq_of_lt
  rw [← hns, pow_add]
  exact Nat.mul_lt_mul_of_pos_right hy (by positivity)

theorem float_shift_eq (U : UType) (sizeof_T : Nat) (hT : sizeof_T = 4 ∨ sizeof_T = 8)
    (hfit : sizeof_T * 8 ≤ U.bits) :
    (max (to_signed 32 (size_diff_bits U sizeof_T)) 0).toNat = U.bits - sizeof_T * 8 := by
  rcases hT with rfl | rfl <;> cases U <;> decide

/-- Closed form of the float encoder on a pattern `a` of `8 * sizeof(T)` bits at a
width that holds it. -/
theorem get_shared_float_representation_closed_form (U : UType) (sizeof_T : Nat)
    (hT : sizeof_T = 4 ∨ sizeof_T = 8) (hfit : sizeof_T * 8 ≤ U.bits) (a : Nat)
    (ha : a < 2 ^ (sizeof_T * 8)) :
    get_shared_float_representation U sizeof_T (.scalar a) (mask U) 0
      = if float_isnan (sizeof_T * 8) a then 0
        else if float_lt_zero (sizeof_T * 8) a then
          (2 ^ (sizeof_T * 8) - 1 - a) * 2 ^ (U.bits - sizeof_T * 8)
        else a * 2 ^ (U.bits - sizeof_T * 8) ^^^ 2 ^ (U.bits - 1) := by
  have hs := float_shift_eq U sizeof_T hT hfit
  have ha2 : (a : Int) < 2 ^ (sizeof_T * 8) := by exact_mod_cast ha
  have hread : Payload.read_float_bits (sizeof_T * 8) (.scalar (a : Int)) = a := by
    simp only [Payload.read_float_bits]
    rw [Int.emod_eq_of_lt (Int.natCast_nonneg a) ha2]
    exact Int.toNat_natCast a
  have hn : sizeof_T * 8 ≤ 64 := by rcases hT with rfl | rfl <;> decide
  have hdvd : (2 : Int) ^ (sizeof_T * 8) ∣ 2 ^ 64 := pow_dvd_pow 2 hn
  have htmp : to_signed 64 ((0 : Int) % 2 ^ 64 / 2 ^ (sizeof_T * 8) * 2 ^ (sizeof_T * 8) + (a : Int))
      ≡ a [ZMOD 2 ^ (sizeof_T * 8)] := by
    have h1 := Int.ModEq.of_dvd hdvd (to_signed_modEq 64
      ((0 : Int) % 2 ^ 64 / 2 ^ (sizeof_T * 8) * 2 ^ (sizeof_T * 8) + (a : Int)))
    simpa using h1
  unfold get_shared_float_representation
  simp only [hread, hs]
  have hcov : U.bits ≤ sizeof_T * 8 + (U.bits - sizeof_T * 8) := by omega
  have hns : sizeof_T * 8 + (U.bits - sizeof_T * 8) = U.bits := by omega
  split_ifs with hnan hneg
  · rfl
  · have e : ((2 ^ (sizeof_T * 8) - 1 - a : Nat) : Int) = 2 ^ (sizeof_T * 8) - 1 - (a : Int) := by
      have h1 : 1 + a ≤ 2 ^ (sizeof_T * 8) := by omega
      rw [Nat.sub_sub, Nat.cast_sub h1]
      push_cast
      ring
    have hc : -to_signed 64 ((0 : Int) % 2 ^ 64 / 2 ^ (sizeof_T * 8) * 2 ^ (sizeof_T * 8) + (a : Int)) - 1
        ≡ ((2 ^ (sizeof_T * 8) - 1 - a : Nat) : Int) [ZMOD 2 ^ (sizeof_T * 8)] := by
      have h2 := (htmp.neg).sub_right 1
      have h3 : (2 : Int) ^ (sizeof_T * 8) - 1 - a ≡ -a - 1 [ZMOD 2 ^ (sizeof_T * 8)] := by
        have : (2 : Int) ^ (sizeof_T * 8) - 1 - a = -a - 1 + 2 ^ (sizeof_T * 8) := by ring
        rw [this]
        exact Int.add_modEq_right
      rw [e]
      exact h2.trans h3.symm
    rw [shl_static_cast_congr U _ _ _ _ hcov hc]
    exact shl_static_cast_small U _ _ _ (by omega) hns
  · rw [shl_static_cast_congr U _ _ _ _ hcov htmp, mask_eq,
      shl_static_cast_small U a _ _ ha hns]
/-- Apart from `-0.0` as the larger value, the float encoder preserves the order of
the non-NaN values: `a < b` gives `encode(a) ≤ encode(b)` whenever `b` is not the
pattern of `-0.0`. -/
theorem float_representation_monotone (U : UType) (sizeof_T : Nat)
    (hT : sizeof_T = 4 ∨ sizeof_T = 8) (hfit : sizeof_T * 8 ≤ U.bits) (a b : Nat)
    (ha : a < 2 ^ (sizeof_T * 8)) (hb : b < 2 ^ (sizeof_T * 8))
    (hlt : float_lt (sizeof_T * 8) a b = true) (hb0 : b ≠ 2 ^ (sizeof_T * 8 - 1)) :
    get_shared_float_representation U sizeof_T (.scalar a) (mask U) 0
      ≤ get_shared_float_representation U sizeof_T (.scalar b) (mask U) 0 := by
  rw [get_shared_float_representation_closed_form U sizeof_T hT hfit a ha,
    get_shared_float_representation_closed_form U sizeof_T hT hfit b hb]
  have hbits : U.bits - 1 + 1 = U.bits := by cases U <;> decide
  have hpow : 2 ^ (sizeof_T * 8) * 2 ^ (U.bits - sizeof_T * 8) = 2 ^ U.bits := by
    rw [← pow_add]
    congr 1
    omega
  have hxa : a * 2 ^ (U.bits - sizeof_T * 8) < 2 ^ (U.bits - 1 + 1) := by
    rw [hbits, ← hpow]
    exact Nat.mul_lt_mul_of_pos_right ha (by positivity)
  have hxb : b * 2 ^ (U.bits - sizeof_T * 8) < 2 ^ (U.bits - 1 + 1) := by
    rw [hbits, ← hpow]
    exact Nat.mul_lt_mul_of_pos_right hb (by positivity)
  rw [xor_two_pow _ _ hxa, xor_two_pow _ _ hxb]
  clear hxa hxb hpow hbits
  unfold float_lt at hlt
  simp only [Bool.and_eq_true, Bool.not_eq_true', decide_eq_true_eq] at hlt
  obtain ⟨⟨hna, hnb⟩, hsm⟩ := hlt
  rw [hna, hnb]
  simp only [Bool.false_eq_true, if_false]
  rcases hT with rfl | rfl <;> cases U <;>
    simp only [float_isnan, float_lt_zero, float_signed_magnitude, mantissa_bits, UType.bits,
      UType.sizeof] at * <;>
    norm_num at * <;>
    split_ifs at hsm ⊢ <;> omega

/-- C7 (the code departs from it). The test `floating_value < 0.0` is false for
`-0.0`, whose sign bit is set: `-0.0` takes the branch of the non-negative values
and encodes to 0, below every negative number. At 64 bits `-1.0 < -0.0` but
`encode(-1.0) = 0x400FFFFFFFFFFFFF` is above `encode(-0.0) = 0`. The chain
`encode(-1.5) < encode(-0.5) < encode(0.0) < encode(0.5)` does hold,
and `float` at 32 bits behaves as `double` at 64. -/
theorem C7_negative_zero_encodes_below_negatives :
    float_lt 64 0xBFF0000000000000 0x8000000000000000 = true ∧
    get_shared_representation .uint64_t (some (.scalar 0xBFF0000000000000))
      .OLAP_FIELD_TYPE_DOUBLE = 0x400FFFFFFFFFFFFF ∧
    get_shared_representation .uint64_t (some (.scalar 0x8000000000000000))
      .OLAP_FIELD_TYPE_DOUBLE = 0 ∧
    ¬ (get_shared_representation .uint64_t (some (.scalar 0xBFF0000000000000))
        .OLAP_FIELD_TYPE_DOUBLE
      ≤ get_shared_representation .uint64_t (some (.scalar 0x8000000000000000))
        .OLAP_FIELD_TYPE_DOUBLE) ∧
    (get_shared_representation .uint64_t (some (.scalar 0xBFF8000000000000))
        .OLAP_FIELD_TYPE_DOUBLE
      < get_shared_representation .uint64_t (some (.scalar 0xBFE0000000000000))
        .OLAP_FIELD_TYPE_DOUBLE ∧
     get_shared_representation .uint64_t (some (.scalar 0xBFE0000000000000))
        .OLAP_FIELD_TYPE_DOUBLE
      < get_shared_representation .uint64_t (some (.scalar 0)) .OLAP_FIELD_TYPE_DOUBLE ∧
     get_shared_representation .uint64_t (some (.scalar 0)) .OLAP_FIELD_TYPE_DOUBLE
      < get_shared_representation .uint64_t (some (.scalar 0x3FE0000000000000))
        .OLAP_FIELD_TYPE_DOUBLE) ∧
    (float_lt 32 0xBF800000 0x80000000 = true ∧
     ¬ (get_shared_representation .uint32_t (some (.scalar 0xBF800000)) .OLAP_FIELD_TYPE_FLOAT
        ≤ get_shared_representation .uint32_t (some (.scalar 0x80000000))
          .OLAP_FIELD_TYPE_FLOAT)) := by
  decide

/-! ## Decimal columns -/

/-- While `integer * 10^9 + fraction` fits an `int64_t` the decimal encoder returns
it exactly, offset by `2 ^ 127`. -/
theorem decimal_representation_of_fits (i f : Int) (hi : -2 ^ 63 ≤ i ∧ i < 2 ^ 63)
    (hf : -2 ^ 31 ≤ f ∧ f < 2 ^ 31)
    (hfit : -2 ^ 63 ≤ i * 10 ^ 9 + f ∧ i * 10 ^ 9 + f < 2 ^ 63) :
    (get_shared_representation .uint128_t (some (.decimal12_t i f)) .OLAP_FIELD_TYPE_DECIMAL : Int)
      = 2 ^ 127 + (i * 10 ^ 9 + f) := by
  unfold get_shared_representation
  dsimp only [Payload.read_decimal12]
  have hb : static_cast .uint128_t (decimal12_value (to_signed 64 i) (to_signed 32 f))
      < 2 ^ (127 + 1) := static_cast_lt .uint128_t _
  have h127 : UType.bits .uint128_t - 1 = 127 := by decide
  rw [mask_eq, h127, xor_two_pow _ _ hb]
  rw [to_signed_of_range 64 (by norm_num) i hi.1 hi.2,
    to_signed_of_range 32 (by norm_num) f hf.1 hf.2] at *
  simp only [decimal12_value, DecimalV2Value.ONE_BILLION, static_cast, to_signed, UType.bits,
    UType.sizeof] at *
  norm_num at *
  split_ifs <;> omega

/-- C10 (the code departs from it). The product `integer * ONE_BILLION` is formed in
64 bits before the result is widened to `int128_t`. For the decimal with integer
part `10^10` and fraction 0 the product `10^19` wraps to `10^19 - 2^64`, and the
encoding at 128 bits is `2^127 - 8446744073709551616`, not `2^127 + 10^19`; it is
below the encoding of the smaller decimal with integer part 1. -/
theorem C10_decimal_product_wraps_at_64_bits :
    get_shared_representation .uint128_t (some (.decimal12_t 10000000000 0))
        .OLAP_FIELD_TYPE_DECIMAL = 2 ^ 127 - 8446744073709551616 ∧
    get_shared_representation .uint128_t (some (.decimal12_t 10000000000 0))
        .OLAP_FIELD_TYPE_DECIMAL
      ≠ ((10000000000 * 10 ^ 9 + 0 : Int) % 2 ^ 128).toNat ^^^ 2 ^ 127 ∧
    get_shared_representation .uint128_t (some (.decimal12_t 10000000000 0))
        .OLAP_FIELD_TYPE_DECIMAL
      < get_shared_representation .uint128_t (some (.decimal12_t 1 0))
        .OLAP_FIELD_TYPE_DECIMAL := by
  decide

/-! ## Width selection -/

theorem max_col_size_loop_spec (schema : Schema) (n : Nat) :
    ∀ (k : Nat) (m : Int),
      m ≤ max_col_size_loop schema k n m ∧
      (∀ i, k ≤ i → i < k + n →
        get_type_byte_size (schema.column i) ≤ max_col_size_loop schema k n m) ∧
      (max_col_size_loop schema k n m = m ∨
        ∃ i, k ≤ i ∧ i < k + n ∧
          get_type_byte_size (schema.column i) = max_col_size_loop schema k n m) := by
  induction n with
  | zero =>
    intro k m
    refine ⟨le_refl _, ?_, Or.inl rfl⟩
    intro i h1 h2
    omega
  | succ n ih =>
    intro k m
    unfold max_col_size_loop
    by_cases hlt : m < get_type_byte_size (schema.column k)
    · rw [if_pos hlt]
      obtain ⟨h1, h2, h3⟩ := ih (k + 1) (get_type_byte_size (schema.column k))
      refine ⟨le_trans hlt.le h1, ?_, ?_⟩
      · intro i hki hi
        by_cases hik : i = k
        · rw [hik]
          exact h1
        · exact h2 i (by omega) (by omega)
      · right
        rcases h3 with h3 | ⟨i, hi1, hi2, hi3⟩
        · exact ⟨k, le_refl _, by omega, h3.symm⟩
        · exact ⟨i, by omega, by omega, hi3⟩
    · rw [if_neg hlt]
      obtain ⟨h1, h2, h3⟩ := ih (k + 1) m
      refine ⟨h1, ?_, ?_⟩
      · intro i hki hi
        by_cases hik : i = k
        · rw [hik]
          exact le_trans (not_lt.1 hlt) h1
        · exact h2 i (by omega) (by omega)
      · rcases h3 with h3 | ⟨i, hi1, hi2, hi3⟩
        · exact Or.inl h3
        · exact Or.inr ⟨i, by omega, by omega, hi3⟩

/-- The `_max_col_size` a comparator is constructed with is the largest byte size
among the columns `0, ..., N - 1`. -/
theorem new_max_col_size (schema : Schema) (N : Int) (h1 : 1 ≤ N) (h3 : N < 2 ^ 31) :
    (∀ i : Nat, (i : Int) < N →
      get_type_byte_size (schema.column i) ≤ (RowCurosrZOrderComparator.new schema N)._max_col_size) ∧
    (∃ i : Nat, (i : Int) < N ∧
      get_type_byte_size (schema.column i) = (RowCurosrZOrderComparator.new schema N)._max_col_size) := by
  have hb : (N % 2 ^ 64).toNat - 1 = N.toNat - 1 := by
    rw [Int.emod_eq_of_lt (by omega) (by omega)]
  obtain ⟨hm, hall, hex⟩ := max_col_size_loop_spec schema (N.toNat - 1) 1
    (get_type_byte_size (schema.column 0))
  have hnew : (RowCurosrZOrderComparator.new schema N)._max_col_size
      = max_col_size_loop schema 1 (N.toNat - 1) (get_type_byte_size (schema.column 0)) := by
    unfold RowCurosrZOrderComparator.new RowCurosrZOrderComparator.max_col_size
    simp only [hb]
  rw [hnew]
  constructor
  · intro i hi
    by_cases h0 : i = 0
    · rw [h0]
      exact hm
    · exact hall i (by omega) (by omega)
  · rcases hex with h | ⟨i, hi1, hi2, hi3⟩
    · exact ⟨0, by omega, h.symm⟩
    · exact ⟨i, by omega, hi3⟩

/-- C11. For a comparator constructed over a schema with a sort-column count `N`,
`1 ≤ N ≤ column count` (`N` an `int`), the width `compare` uses is fixed by the
largest byte size `M` of the columns `0, ..., N - 1`: 32 bits if `M ≤ 4`, 64 bits
if `4 < M ≤ 8`, 128 bits otherwise. Column sizes `{4, 8, 2}` give 64 bits, `{16}`
gives 128, `{1, 2, 4}` gives 32, and columns all of byte size 0 give 32. -/
theorem C11_width_selection (schema : Schema) (N : Int) (h1 : 1 ≤ N)
    (_h2 : N ≤ schema.num_columns) (h3 : N < 2 ^ 31) :
    (∃ (M : Int) (U : UType),
      (∀ i : Nat, (i : Int) < N → get_type_byte_size (schema.column i) ≤ M) ∧
      (∃ i : Nat, (i : Int) < N ∧ get_type_byte_size (schema.column i) = M) ∧
      (∀ lhs rhs, (RowCurosrZOrderComparator.new schema N).compare lhs rhs
        = (RowCurosrZOrderComparator.new schema N).compare_based_on_size U schema lhs rhs) ∧
      U.bits = (if M ≤ 4 then 32 else if M ≤ 8 then 64 else 128) ∧
      ((∀ i : Nat, (i : Int) < N → get_type_byte_size (schema.column i) = 0) → U.bits = 32)) ∧
    (select_U (RowCurosrZOrderComparator.new (Schema.of_list
      [.OLAP_FIELD_TYPE_INT, .OLAP_FIELD_TYPE_BIGINT, .OLAP_FIELD_TYPE_SMALLINT])
        3)._max_col_size).bits = 64 ∧
    (select_U (RowCurosrZOrderComparator.new (Schema.of_list
      [.OLAP_FIELD_TYPE_LARGEINT]) 1)._max_col_size).bits = 128 ∧
    (select_U (RowCurosrZOrderComparator.new (Schema.of_list
      [.OLAP_FIELD_TYPE_TINYINT, .OLAP_FIELD_TYPE_SMALLINT, .OLAP_FIELD_TYPE_INT])
        3)._max_col_size).bits = 32 ∧
    (select_U (RowCurosrZOrderComparator.new (Schema.of_list
      [.OLAP_FIELD_TYPE_VARCHAR, .OLAP_FIELD_TYPE_CHAR]) 2)._max_col_size).bits = 32 := by
  refine ⟨?_, by decide, by decide, by decide, by decide⟩
  obtain ⟨hall, i0, hi0, hmax⟩ := new_max_col_size schema N h1 h3
  refine ⟨(RowCurosrZOrderComparator.new schema N)._max_col_size,
    select_U (RowCurosrZOrderComparator.new schema N)._max_col_size, hall, ⟨i0, hi0, hmax⟩,
    ?_, ?_, ?_⟩
  · intro lhs rhs
    rfl
  · unfold select_U
    split_ifs <;> rfl
  · intro hzero
    have h0 : (RowCurosrZOrderComparator.new schema N)._max_col_size = 0 := by
      rw [← hmax]
      exact hzero i0 hi0
    rw [h0]
    rfl

/-- Witness of C11: the columns `INT`, `BIGINT`, `SMALLINT` with `N = 3` compare at
64 bits. -/
theorem C11_width_selection_witness :
    ∃ (M : Int) (U : UType),
      (∀ i : Nat, (i : Int) < 3 → get_type_byte_size ((Schema.of_list
        [.OLAP_FIELD_TYPE_INT, .OLAP_FIELD_TYPE_BIGINT, .OLAP_FIELD_TYPE_SMALLINT]).column i)
          ≤ M) ∧
      (∃ i : Nat, (i : Int) < 3 ∧ get_type_byte_size ((Schema.of_list
        [.OLAP_FIELD_TYPE_INT, .OLAP_FIELD_TYPE_BIGINT, .OLAP_FIELD_TYPE_SMALLINT]).column i)
          = M) ∧
      (∀ lhs rhs, (RowCurosrZOrderComparator.new (Schema.of_list
          [.OLAP_FIELD_TYPE_INT, .OLAP_FIELD_TYPE_BIGINT, .OLAP_FIELD_TYPE_SMALLINT])
            3).compare lhs rhs
        = (RowCurosrZOrderComparator.new (Schema.of_list
          [.OLAP_FIELD_TYPE_INT, .OLAP_FIELD_TYPE_BIGINT, .OLAP_FIELD_TYPE_SMALLINT])
            3).compare_based_on_size U (Schema.of_list
          [.OLAP_FIELD_TYPE_INT, .OLAP_FIELD_TYPE_BIGINT, .OLAP_FIELD_TYPE_SMALLINT])
            lhs rhs) ∧
      U.bits = (if M ≤ 4 then 32 else if M ≤ 8 then 64 else 128) ∧
      ((∀ i : Nat, (i : Int) < 3 → get_type_byte_size ((Schema.of_list
        [.OLAP_FIELD_TYPE_INT, .OLAP_FIELD_TYPE_BIGINT, .OLAP_FIELD_TYPE_SMALLINT]).column i)
          = 0) → U.bits = 32) :=
  (C11_width_selection (Schema.of_list
    [.OLAP_FIELD_TYPE_INT, .OLAP_FIELD_TYPE_BIGINT, .OLAP_FIELD_TYPE_SMALLINT]) 3
    (by decide) (by decide) (by decide)).1

/-! ## NaN and null -/

theorem get_shared_representation_null (U : UType) (type : FieldType) :
    get_shared_representation U none type = 0 := rfl

theorem rep_of_null (U : UType) (schema : Schema) (row : Row) (i : Nat)
    (h : (row.cell i).is_null = true) : rep U schema row i = 0 := by
  unfold rep Row.val
  rw [h]
  rfl

theorem compare_based_on_size_one (self : RowCurosrZOrderComparator) (U : UType)
    (schema : Schema) (lhs rhs : Row) (hN : self._sort_col_num ≤ 1) :
    self.compare_based_on_size U schema lhs rhs
      = three_way (rep U schema lhs 0) (rep U schema rhs 0) := by
  unfold RowCurosrZOrderComparator.compare_based_on_size
  have h : (self._sort_col_num - 1).toNat = 0 := by omega
  simp only [h, compare_loop]
  rfl

/-- C12. For a `FLOAT` or `DOUBLE` column and every width, a NaN bit pattern and
null both have the shared representation 0, so a comparator with `N = 1` over that
column returns 0 on a row holding a NaN and a row holding null, in either order. -/
theorem C12_nan_and_null_encode_to_zero (U : UType) (type : FieldType)
    (htype : type = .OLAP_FIELD_TYPE_FLOAT ∨ type = .OLAP_FIELD_TYPE_DOUBLE) (val : Payload)
    (hnan : float_isnan (byte_size type * 8) (val.read_float_bits (byte_size type * 8)) = true) :
    get_shared_representation U (some val) type = 0 ∧
    get_shared_representation U none type = 0 ∧
    ∀ (self : RowCurosrZOrderComparator) (schema : Schema) (lhs rhs : Row),
      self._sort_col_num = 1 → schema.column 0 = type →
      lhs.cell 0 = { is_null := false, cell_ptr := val } → (rhs.cell 0).is_null = true →
      self.compare_based_on_size U schema lhs rhs = 0 ∧
        self.compare_based_on_size U schema rhs lhs = 0 := by
  have hval : get_shared_representation U (some val) type = 0 := by
    rcases htype with rfl | rfl
    · unfold get_shared_representation
      dsimp only
      unfold get_shared_float_representation
      have h : float_isnan (4 * 8) (val.read_float_bits (4 * 8)) = true := hnan
      simp only [h, if_true]
    · unfold get_shared_representation
      dsimp only
      unfold get_shared_float_representation
      have h : float_isnan (8 * 8) (val.read_float_bits (8 * 8)) = true := hnan
      simp only [h, if_true]
  refine ⟨hval, rfl, ?_⟩
  intro self schema lhs rhs hN htype2 hl hr
  have h1 : rep U schema lhs 0 = 0 := by
    unfold rep Row.val
    rw [hl, htype2]
    exact hval
  have h2 : rep U schema rhs 0 = 0 := rep_of_null U schema rhs 0 hr
  rw [compare_based_on_size_one self U schema lhs rhs (by omega),
    compare_based_on_size_one self U schema rhs lhs (by omega), h1, h2]
  exact ⟨three_way_self 0, three_way_self 0⟩

/-- Witness of C12: the quiet NaN `0x7FF8000000000000` of a `DOUBLE` column at 64
bits. -/
theorem C12_nan_and_null_encode_to_zero_witness :
    get_shared_representation .uint64_t (some (.scalar 0x7FF8000000000000))
      .OLAP_FIELD_TYPE_DOUBLE = 0 :=
  (C12_nan_and_null_encode_to_zero .uint64_t .OLAP_FIELD_TYPE_DOUBLE (Or.inr rfl)
    (.scalar 0x7FF8000000000000) (by decide)).1

/-! ## Null floor and componentwise dominance -/

theorem three_way_zero_left (b : Nat) : three_way 0 b = -1 ∨ three_way 0 b = 0 := by
  rcases Nat.eq_zero_or_pos b with h | h
  · rw [h]
    exact Or.inr (three_way_self 0)
  · exact Or.inl (three_way_of_lt h)

theorem three_way_of_le {a b : Nat} (h : a ≤ b) : three_way a b = -1 ∨ three_way a b = 0 := by
  rcases Nat.eq_or_lt_of_le h with h | h
  · rw [h]
    exact Or.inr (three_way_self b)
  · exact Or.inl (three_way_of_lt h)

/-- C13. For two rows `a` and `b` with a null in column 0 of `a`, a non-null value
in column 0 of `b` and equal cells in every other sort column `i` in `[1, N)`,
`compare(a, b)` is -1 or 0, never +1. Stated for `compare_based_on_size` at any
width and schema, of which `compare` is an instance. -/
theorem C13_null_floor (self : RowCurosrZOrderComparator) (U : UType) (schema : Schema)
    (a b : Row) (ha : (a.cell 0).is_null = true) (_hb : (b.cell 0).is_null = false)
    (heq : ∀ i : Nat, 1 ≤ i → (i : Int) < self._sort_col_num → a.cell i = b.cell i) :
    (self.compare_based_on_size U schema a b = -1 ∨ self.compare_based_on_size U schema a b = 0) ∧
      self.compare_based_on_size U schema a b ≠ 1 := by
  have hcases : self.compare_based_on_size U schema a b = -1 ∨
      self.compare_based_on_size U schema a b = 0 := by
    rw [compare_based_on_size_clamp]
    obtain ⟨j, ⟨hjn, _, _⟩, hcmp⟩ := compare_based_on_size_dominant
      { self with _sort_col_num := max 1 self._sort_col_num } U schema a b (le_max_left _ _)
    rw [hcmp]
    by_cases hj : j = 0
    · rw [hj, rep_of_null U schema a 0 ha]
      exact three_way_zero_left _
    · have hjN : (j : Int) < self._sort_col_num := by
        simp only at hjn
        omega
      have hcell := heq j (by omega) hjN
      have hrep : rep U schema a j = rep U schema b j := by
        unfold rep Row.val
        rw [hcell]
      rw [hrep]
      exact Or.inr (three_way_self _)
  refine ⟨hcases, ?_⟩
  rcases hcases with h | h <;> rw [h] <;> decide

/-- Witness of C13: two `INT` columns, `N = 2`; the row `(null, 7)` against the row
`(-5, 7)` through `compare`. -/
theorem C13_null_floor_witness :
    ((RowCurosrZOrderComparator.new
        (Schema.of_list [.OLAP_FIELD_TYPE_INT, .OLAP_FIELD_TYPE_INT]) 2).compare
        { cell := fun i => { is_null := decide (i = 0), cell_ptr := .scalar 7 } }
        (Row.of_scalars [-5, 7]) = -1 ∨
      (RowCurosrZOrderComparator.new
        (Schema.of_list [.OLAP_FIELD_TYPE_INT, .OLAP_FIELD_TYPE_INT]) 2).compare
        { cell := fun i => { is_null := decide (i = 0), cell_ptr := .scalar 7 } }
        (Row.of_scalars [-5, 7]) = 0) :=
  (C13_null_floor
    (RowCurosrZOrderComparator.new (Schema.of_list [.OLAP_FIELD_TYPE_INT, .OLAP_FIELD_TYPE_INT]) 2)
    (select_U (RowCurosrZOrderComparator.new
      (Schema.of_list [.OLAP_FIELD_TYPE_INT, .OLAP_FIELD_TYPE_INT]) 2)._max_col_size)
    (Schema.of_list [.OLAP_FIELD_TYPE_INT, .OLAP_FIELD_TYPE_INT])
    { cell := fun i => { is_null := decide (i = 0), cell_ptr := .scalar 7 } }
    (Row.of_scalars [-5, 7]) (by decide) (by decide)
    (by
      intro i h1 h2
      have hi : i = 1 := by
        have : (i : Int) < 2 := h2
        omega
      subst hi
      rfl)).1

/-- C20. Componentwise dominance: for `N ≥ 1`, any width and rows `a`, `b` whose
shared representations satisfy `a_i ≤ b_i` at every column `i < N`,
`compare(a, b)` is -1 or 0, never +1; and it is -1 as soon as one of the
inequalities is strict. Stated for `compare_based_on_size` at any width and
schema, of which `compare` is an instance. -/
theorem C20_componentwise_dominance (self : RowCurosrZOrderComparator) (U : UType)
    (schema : Schema) (a b : Row) (hN : 1 ≤ self._sort_col_num)
    (hle : ∀ i : Nat, (i : Int) < self._sort_col_num →
      get_shared_representation U (a.val i) (schema.column i)
        ≤ get_shared_representation U (b.val i) (schema.column i)) :
    (self.compare_based_on_size U schema a b = -1 ∨ self.compare_based_on_size U schema a b = 0) ∧
    self.compare_based_on_size U schema a b ≠ 1 ∧
    ((∃ i : Nat, (i : Int) < self._sort_col_num ∧
        get_shared_representation U (a.val i) (schema.column i)
          < get_shared_representation U (b.val i) (schema.column i)) →
      self.compare_based_on_size U schema a b = -1) := by
  obtain ⟨j, ⟨hjn, hmax, _⟩, hcmp⟩ := compare_based_on_size_dominant self U schema a b hN
  have hj : rep U schema a j ≤ rep U schema b j := hle j (by omega)
  have hcases := three_way_of_le hj
  rw [hcmp]
  refine ⟨hcases, ?_, ?_⟩
  · rcases hcases with h | h <;> rw [h] <;> decide
  · rintro ⟨i, hi, hlt⟩
    have hne : rep U schema a i ^^^ rep U schema b i ≠ 0 := by
      intro h
      have := Nat.xor_eq_zero.1 h
      unfold rep at this
      omega
    have hpos : 0 < diff_size U schema a b i := Nat.size_pos.2 (Nat.pos_of_ne_zero hne)
    have hposj : 0 < diff_size U schema a b j := lt_of_lt_of_le hpos (hmax i (by omega))
    have hnej : rep U schema a j ≠ rep U schema b j := by
      intro h
      unfold diff_size at hposj
      rw [h, Nat.xor_self, Nat.size_zero] at hposj
      exact absurd hposj (by decide)
    exact three_way_of_lt (lt_of_le_of_ne hj hnej)

/-- Witness of C20: two `INT` columns, `N = 2`; the row `(1, 3)` is dominated by the
row `(1, 4)`. -/
theorem C20_componentwise_dominance_witness :
    (RowCurosrZOrderComparator.new
        (Schema.of_list [.OLAP_FIELD_TYPE_INT, .OLAP_FIELD_TYPE_INT]) 2).compare
        (Row.of_scalars [1, 3]) (Row.of_scalars [1, 4]) = -1 :=
  (C20_componentwise_dominance
    (RowCurosrZOrderComparator.new (Schema.of_list [.OLAP_FIELD_TYPE_INT, .OLAP_FIELD_TYPE_INT]) 2)
    (select_U (RowCurosrZOrderComparator.new
      (Schema.of_list [.OLAP_FIELD_TYPE_INT, .OLAP_FIELD_TYPE_INT]) 2)._max_col_size)
    (Schema.of_list [.OLAP_FIELD_TYPE_INT, .OLAP_FIELD_TYPE_INT])
    (Row.of_scalars [1, 3]) (Row.of_scalars [1, 4]) (by decide)
    (by
      intro i hi
      have hi2 : i = 0 ∨ i = 1 := by
        have : (i : Int) < 2 := hi
        omega
      rcases hi2 with rfl | rfl <;> decide)).2.2
    ⟨1, by decide, by decide⟩

/-! ## The two Z-order scenarios, the bit test, the count 0 -/

/-- C14 as stated fails: the comparison of `(2, 2)` with `(1, 3)` does not return -1. -/
theorem C14_scenario_2_not_less :
    (RowCurosrZOrderComparator.new
        (Schema.of_list [.OLAP_FIELD_TYPE_INT, .OLAP_FIELD_TYPE_INT]) 2).compare
        (Row.of_scalars [2, 2]) (Row.of_scalars [1, 3]) ≠ -1 := by
  decide

/-- C14, amended. For two `INT` columns `x`, `y` with `N = 2` (32-bit width), the
row `(2, 2)` compares above the row `(1, 3)`: `compare` returns +1, and -1 with
the rows exchanged. The Morton codes of the two rows, column 0 most significant
within a bit level, are `1100b = 12` and `0111b = 7`. -/
theorem C14_scenario_2_greater :
    select_U (RowCurosrZOrderComparator.new
        (Schema.of_list [.OLAP_FIELD_TYPE_INT, .OLAP_FIELD_TYPE_INT]) 2)._max_col_size
      = .uint32_t ∧
    (RowCurosrZOrderComparator.new
        (Schema.of_list [.OLAP_FIELD_TYPE_INT, .OLAP_FIELD_TYPE_INT]) 2).compare
        (Row.of_scalars [2, 2]) (Row.of_scalars [1, 3]) = 1 ∧
    (RowCurosrZOrderComparator.new
        (Schema.of_list [.OLAP_FIELD_TYPE_INT, .OLAP_FIELD_TYPE_INT]) 2).compare
        (Row.of_scalars [1, 3]) (Row.of_scalars [2, 2]) = -1 ∧
    morton_code 2 [2, 2] = 12 ∧ morton_code 2 [1, 3] = 7 := by
  decide

/-- C15. For two `INT` columns `x`, `y` with `N = 2` (32-bit width), the row
`(1, 0)` compares above the row `(0, 1)`: `compare` returns +1. -/
theorem C15_scenario_1_greater :
    select_U (RowCurosrZOrderComparator.new
        (Schema.of_list [.OLAP_FIELD_TYPE_INT, .OLAP_FIELD_TYPE_INT]) 2)._max_col_size
      = .uint32_t ∧
    (RowCurosrZOrderComparator.new
        (Schema.of_list [.OLAP_FIELD_TYPE_INT, .OLAP_FIELD_TYPE_INT]) 2).compare
        (Row.of_scalars [1, 0]) (Row.of_scalars [0, 1]) = 1 := by
  decide

theorem size_eq_log2_succ {n : Nat} (h : n ≠ 0) : n.size = n.log2 + 1 := by
  apply le_antisymm
  · exact Nat.size_le.2 Nat.lt_log2_self
  · exact Nat.lt_size.2 (Nat.log2_self_le h)

/-- C17. The test `less_msb x y`, that is `x < y && x < (x ^ y)`, holds exactly
when `y` has a set bit strictly more significant than every set bit of `x`: when
`y ≠ 0` and either `x = 0` or the index of the highest set bit of `x` is below that
of `y`. It holds for all natural numbers, hence at each of the three widths. -/
theorem C17_less_msb_iff_higher_bit (x y : Nat) :
    (less_msb x y = true ↔
      ∃ i, y.testBit i = true ∧ ∀ j, x.testBit j = true → j < i) ∧
    (less_msb x y = true ↔ y ≠ 0 ∧ (x = 0 ∨ x.log2 < y.log2)) := by
  constructor
  · rw [less_msb_iff_size]
    constructor
    · intro h
      have hy : 0 < y := Nat.size_pos.1 (by omega)
      refine ⟨y.size - 1, testBit_size_pred hy, ?_⟩
      intro j hj
      by_contra hcon
      have hfalse : x.testBit j = false := testBit_of_size_le (by omega)
      rw [hfalse] at hj
      exact Bool.false_ne_true hj
    · rintro ⟨i, hi, hall⟩
      have hiy : i < y.size := Nat.lt_size.2 (Nat.testBit_implies_ge hi)
      rcases Nat.eq_zero_or_pos x with hx | hx
      · rw [hx, Nat.size_zero]
        omega
      · have := hall _ (testBit_size_pred hx)
        omega
  · rw [less_msb_iff_size]
    constructor
    · intro h
      have hy : y ≠ 0 := Nat.pos_iff_ne_zero.1 (Nat.size_pos.1 (by omega))
      refine ⟨hy, ?_⟩
      by_cases hx : x = 0
      · exact Or.inl hx
      · right
        rw [size_eq_log2_succ hx, size_eq_log2_succ hy] at h
        omega
    · rintro ⟨hy, hx | hlt⟩
      · rw [hx, Nat.size_zero]
        exact Nat.size_pos.2 (Nat.pos_of_ne_zero hy)
      · by_cases hx : x = 0
        · rw [hx, Nat.size_zero]
          exact Nat.size_pos.2 (Nat.pos_of_ne_zero hy)
        · rw [size_eq_log2_succ hx, size_eq_log2_succ hy]
          omega

/-- C19. A comparator configured with the sort-column count 0 selects the same
width and returns the same result as one configured with the count 1: it compares
the shared representations of column 0 only. -/
theorem C19_zero_count_behaves_as_one (schema : Schema) (lhs rhs : Row) :
    (RowCurosrZOrderComparator.new schema 0)._max_col_size
      = (RowCurosrZOrderComparator.new schema 1)._max_col_size ∧
    (RowCurosrZOrderComparator.new schema 0)._max_col_size
      = get_type_byte_size (schema.column 0) ∧
    select_U (RowCurosrZOrderComparator.new schema 0)._max_col_size
      = select_U (RowCurosrZOrderComparator.new schema 1)._max_col_size ∧
    (RowCurosrZOrderComparator.new schema 0).compare lhs rhs
      = (RowCurosrZOrderComparator.new schema 1).compare lhs rhs ∧
    (RowCurosrZOrderComparator.new schema 0).compare lhs rhs
      = three_way
          (get_shared_representation (select_U (get_type_byte_size (schema.column 0)))
            (lhs.val 0) (schema.column 0))
          (get_shared_representation (select_U (get_type_byte_size (schema.column 0)))
            (rhs.val 0) (schema.column 0)) := by
  have h0 : (RowCurosrZOrderComparator.new schema 0)._max_col_size
      = get_type_byte_size (schema.column 0) := rfl
  have h1 : (RowCurosrZOrderComparator.new schema 1)._max_col_size
      = get_type_byte_size (schema.column 0) := rfl
  have hc0 : (RowCurosrZOrderComparator.new schema 0).compare lhs rhs
      = three_way
          (get_shared_representation (select_U (get_type_byte_size (schema.column 0)))
            (lhs.val 0) (schema.column 0))
          (get_shared_representation (select_U (get_type_byte_size (schema.column 0)))
            (rhs.val 0) (schema.column 0)) := by
    have hs : (RowCurosrZOrderComparator.new schema 0)._sort_col_num ≤ 1 :=
      le_of_eq_of_le (show (RowCurosrZOrderComparator.new schema 0)._sort_col_num = 0 from rfl)
        (by decide)
    unfold RowCurosrZOrderComparator.compare
    rw [compare_based_on_size_one _ _ _ _ _ hs, h0]
    rfl
  have hc1 : (RowCurosrZOrderComparator.new schema 1).compare lhs rhs
      = three_way
          (get_shared_representation (select_U (get_type_byte_size (schema.column 0)))
            (lhs.val 0) (schema.column 0))
          (get_shared_representation (select_U (get_type_byte_size (schema.column 0)))
            (rhs.val 0) (schema.column 0)) := by
    have hs : (RowCurosrZOrderComparator.new schema 1)._sort_col_num ≤ 1 :=
      le_of_eq_of_le (show (RowCurosrZOrderComparator.new schema 1)._sort_col_num = 1 from rfl)
        (by decide)
    unfold RowCurosrZOrderComparator.compare
    rw [compare_based_on_size_one _ _ _ _ _ hs, h1]
    rfl
  exact ⟨h0.trans h1.symm, h0, by rw [h0, h1], hc0.trans hc1.symm, hc0⟩

/-! ## The byte-order normaliser -/

/-- The generic loop of the `default` branch, run for its first `k` iterations,
has written the first `k` bytes of the reversed source. -/
theorem byte_swap_loop_first (dest source : List Byte) (len : Nat)
    (hs : len ≤ source.length) (k : Nat) (hk : k ≤ len) :
    (List.range k).foldl (fun d i => store d i (load source (len - i - 1) 1)) dest
      = ((source.take len).reverse).take k ++ dest.drop k := by
  induction k with
  | zero => simp
  | succ k ih =>
    have hlenR : ((source.take len).reverse).length = len := by
      rw [List.length_reverse, List.length_take]
      omega
    have hidx : len - k - 1 < source.length := by omega
    have hload : load source (len - k - 1) 1 = [source[len - k - 1]] := by
      unfold load
      exact List.take_one_drop_eq_of_lt_length hidx
    have hRk : ((source.take len).reverse)[k]? = some source[len - k - 1] := by
      rw [List.getElem?_reverse (by rw [List.length_take]; omega), List.length_take,
        List.getElem?_take]
      have h1 : min len source.length - 1 - k = len - k - 1 := by omega
      rw [h1, if_pos (by omega), List.getElem?_eq_getElem hidx]
    have htk : (((source.take len).reverse).take k).length = k := by
      rw [List.length_take, hlenR]
      omega
    rw [List.range_succ, List.foldl_append, ih (by omega)]
    simp only [List.foldl_cons, List.foldl_nil]
    rw [hload, List.take_succ, hRk]
    unfold store
    rw [List.take_left' htk, List.drop_append_eq_append_drop, htk,
      List.drop_eq_nil_of_le (by rw [htk]; simp), List.drop_drop]
    simp only [List.length_singleton, Option.toList_some, List.nil_append, List.append_assoc]
    congr 3
    omega

/-- The generic loop of the `default` branch writes the first `len` source bytes in
reverse order at the start of the destination and leaves its other bytes as they
were, for every length. -/
theorem byte_swap_loop_eq (dest source : List Byte) (len : Nat)
    (hs : len ≤ source.length) :
    (List.range len).foldl (fun d i => store d i (load source (len - i - 1) 1)) dest
      = (source.take len).reverse ++ dest.drop len := by
  rw [byte_swap_loop_first dest source len hs len le_rfl]
  congr 1
  apply List.take_of_length_le
  rw [List.length_reverse, List.length_take]
  omega

theorem be_value_eq_sum (s : List Byte) :
    be_value s = ∑ i : Fin s.length, (s.get i).val * 256 ^ (s.length - 1 - i.val) := by
  induction s with
  | nil => rfl
  | cons c s ih =>
    rw [be_value, ih]
    simp only [List.length_cons, Fin.sum_univ_succ, List.get_cons_zero, List.get_cons_succ,
      Fin.val_zero, Fin.val_succ]
    congr 1
    apply Finset.sum_congr rfl
    intro i _
    congr 2
    omega

/-- C18. For a length `len` from 1 to 16, a source `s` of that length and a
zero-initialised destination of `n ≥ len` bytes, `ByteSwapScalar` writes
`dest[i] = s[len - 1 - i]` for every `i < len`, as the generic reversal loop of the
`default` branch does, and leaves the other bytes 0. Read as a little-endian
number the destination is the big-endian number written by `s`, the sum of
`s[i] * 256 ^ (len - 1 - i)`. -/
theorem C18_ByteSwapScalar_reverses (len : Nat) (h1 : 1 ≤ len) (h16 : len ≤ 16) (s : List Byte)
    (hs : s.length = len) (n : Nat) (hn : len ≤ n) :
    ByteSwapScalar (List.replicate n 0) s len = s.reverse ++ List.replicate (n - len) 0 ∧
    ByteSwapScalar (List.replicate n 0) s len
      = (List.range len).foldl (fun d i => store d i (load s (len - i - 1) 1))
          (List.replicate n 0) ∧
    (∀ i, i < len → (ByteSwapScalar (List.replicate n 0) s len)[i]? = s[len - 1 - i]?) ∧
    (∀ i, len ≤ i → i < n → (ByteSwapScalar (List.replicate n 0) s len)[i]? = some 0) ∧
    le_value (ByteSwapScalar (List.replicate n 0) s len)
      = ∑ i : Fin s.length, (s.get i).val * 256 ^ (s.length - 1 - i.val) := by
  have htake : s.take len = s := by
    rw [← hs]
    exact List.take_length s
  have hdl : len ≤ (List.replicate n (0 : Byte)).length := by simpa using hn
  have heq : ByteSwapScalar (List.replicate n 0) s len
      = s.reverse ++ List.replicate (n - len) 0 := by
    rw [ByteSwapScalar_eq _ s len h1 h16 hdl (by omega), htake, List.drop_replicate]
  have hloop : (List.range len).foldl (fun d i => store d i (load s (len - i - 1) 1))
      (List.replicate n 0) = s.reverse ++ List.replicate (n - len) 0 := by
    rw [byte_swap_loop_eq _ s len (by omega), htake, List.drop_replicate]
  refine ⟨heq, heq.trans hloop.symm, ?_, ?_, ?_⟩
  · intro i hi
    rw [heq, List.getElem?_append_left (by simpa [hs] using hi),
      List.getElem?_reverse (by omega), hs]
  · intro i hi hin
    rw [heq, List.getElem?_append_right (by simp [hs, hi])]
    simp only [List.length_reverse, hs]
    rw [List.getElem?_replicate]
    simp
    omega
  · rw [heq, le_value_append, le_value_reverse, le_value_replicate_zero, Nat.mul_zero,
      Nat.add_zero, be_value_eq_sum]

/-- Witness of C18: the three bytes `"abc"` into a zero-initialised `uint32_t`. -/
theorem C18_ByteSwapScalar_reverses_witness :
    ByteSwapScalar (List.replicate 4 0) [97, 98, 99] 3
      = ([97, 98, 99] : List Byte).reverse ++ List.replicate (4 - 3) 0 :=
  (C18_ByteSwapScalar_reverses 3 (by decide) (by decide) [97, 98, 99] rfl 4 (by decide)).1

/-! ## Construction -/

theorem max_col_size_loop_checked_ok (schema : Schema) (n : Nat) :
    ∀ (k : Nat) (m : Int), k + n ≤ schema.num_columns →
      max_col_size_loop_checked schema k n m = .ok (max_col_size_loop schema k n m) := by
  induction n with
  | zero =>
    intro k m _
    rfl
  | succ n ih =>
    intro k m h
    unfold max_col_size_loop_checked max_col_size_loop
    rw [if_pos (by omega)]
    split_ifs
    · exact ih (k + 1) _ (by omega)
    · exact ih (k + 1) _ (by omega)

theorem max_col_size_loop_checked_error (schema : Schema) (n : Nat) :
    ∀ (k : Nat) (m : Int), 0 < n → schema.num_columns < k + n →
      max_col_size_loop_checked schema k n m = .error (max k schema.num_columns) := by
  induction n with
  | zero =>
    intro k m h0 _
    omega
  | succ n ih =>
    intro k m _ h
    unfold max_col_size_loop_checked
    by_cases hk : k < schema.num_columns
    · rw [if_pos hk]
      have hmax : max k schema.num_columns = max (k + 1) schema.num_columns := by omega
      rw [hmax]
      split_ifs
      · exact ih (k + 1) _ (by omega) (by omega)
      · exact ih (k + 1) _ (by omega) (by omega)
    · rw [if_neg hk]
      have hmax : max k schema.num_columns = k := by omega
      rw [hmax]

/-- The constructor reads inside the schema exactly for a non-empty schema and a
count in `[0, column count]`; it then builds the comparator of `new`. Otherwise it
reads an ordinal at or past the column count. It never reports a failure. -/
theorem construct_cases (schema : Schema) (N : Int) (hN : -2 ^ 31 ≤ N ∧ N < 2 ^ 31)
    (hcols : schema.num_columns < 2 ^ 63) :
    ((0 < schema.num_columns ∧ 0 ≤ N ∧ N ≤ schema.num_columns) ∧
      RowCurosrZOrderComparator.construct schema N
        = .constructed (RowCurosrZOrderComparator.new schema N)) ∨
    (¬ (0 < schema.num_columns ∧ 0 ≤ N ∧ N ≤ schema.num_columns) ∧
      ∃ i, schema.num_columns ≤ i ∧
        RowCurosrZOrderComparator.construct schema N = .read_outside_schema i) := by
  by_cases hempty : 0 < schema.num_columns
  · by_cases hvalid : 0 ≤ N ∧ N ≤ schema.num_columns
    · left
      refine ⟨⟨hempty, hvalid⟩, ?_⟩
      have hb : (N % 2 ^ 64).toNat = N.toNat := by
        rw [Int.emod_eq_of_lt (by omega) (by omega)]
      unfold RowCurosrZOrderComparator.construct RowCurosrZOrderComparator.new
        RowCurosrZOrderComparator.max_col_size
      simp only [hb, if_pos hempty]
      rw [max_col_size_loop_checked_ok schema (N.toNat - 1) 1 _ (by omega)]
    · right
      refine ⟨fun h => hvalid h.2, schema.num_columns, le_refl _, ?_⟩
      have hbig : 0 < (N % 2 ^ 64).toNat - 1 ∧
          schema.num_columns < 1 + ((N % 2 ^ 64).toNat - 1) := by
        by_cases hneg : N < 0
        · have h1 : N % 2 ^ 64 = N + 2 ^ 64 := by
            rw [← Int.add_emod_self, Int.emod_eq_of_lt (by omega) (by omega)]
          rw [h1]
          omega
        · rw [Int.emod_eq_of_lt (by omega) (by omega)]
          omega
      unfold RowCurosrZOrderComparator.construct
      simp only [if_pos hempty]
      rw [max_col_size_loop_checked_error schema _ 1 _ hbig.1 hbig.2]
      have hmax : max 1 schema.num_columns = schema.num_columns := by omega
      rw [hmax]
  · right
    refine ⟨fun h => hempty h.1, 0, by omega, ?_⟩
    unfold RowCurosrZOrderComparator.construct
    simp only [if_neg hempty]

/-- C16 as stated fails: for a schema of one column and the count 5, outside
`[0, column count]`, the constructor reports no failure; it reads the type of
ordinal 1, which is not a column of the schema. -/
theorem C16_out_of_range_count_not_rejected :
    RowCurosrZOrderComparator.construct (Schema.of_list [.OLAP_FIELD_TYPE_INT]) 5
      = .read_outside_schema 1 ∧
    ¬ (RowCurosrZOrderComparator.construct (Schema.of_list [.OLAP_FIELD_TYPE_INT]) 5 = .failed ↔
        ((5 : Int) < 0 ∨ ((Schema.of_list [.OLAP_FIELD_TYPE_INT]).num_columns : Int) < 5 ∨
          (Schema.of_list [.OLAP_FIELD_TYPE_INT]).num_columns = 0)) := by
  have hval : RowCurosrZOrderComparator.construct (Schema.of_list [.OLAP_FIELD_TYPE_INT]) 5
      = .read_outside_schema 1 := rfl
  refine ⟨hval, ?_⟩
  intro h
  have hfail := h.2 (Or.inr (Or.inl (by decide)))
  rw [hval] at hfail
  exact Construction.noConfusion hfail

/-- C16, amended. The constructor checks neither the sort-column count nor the
schema and reports a failure for no input (`sort_col_num` an `int`, the schema of
fewer than `2 ^ 63` columns). For a non-empty schema and a count in
`[0, column count]`, and only then, every read is a column of the schema and the
comparator is built; for every other input the constructor reads the type of an
ordinal that is not a column of the schema. -/
theorem C16_constructor_checks_nothing (schema : Schema) (N : Int)
    (hN : -2 ^ 31 ≤ N ∧ N < 2 ^ 31) (hcols : schema.num_columns < 2 ^ 63) :
    RowCurosrZOrderComparator.construct schema N ≠ .failed ∧
    (RowCurosrZOrderComparator.construct schema N
        = .constructed (RowCurosrZOrderComparator.new schema N) ↔
      (0 < schema.num_columns ∧ 0 ≤ N ∧ N ≤ schema.num_columns)) ∧
    (¬ (0 < schema.num_columns ∧ 0 ≤ N ∧ N ≤ schema.num_columns) →
      ∃ i, schema.num_columns ≤ i ∧
        RowCurosrZOrderComparator.construct schema N = .read_outside_schema i) := by
  rcases construct_cases schema N hN hcols with ⟨hvalid, hc⟩ | ⟨hinvalid, i, hi, hc⟩
  · refine ⟨?_, ⟨fun _ => hvalid, fun _ => hc⟩, fun h => absurd hvalid h⟩
    rw [hc]
    exact fun h => Construction.noConfusion h
  · refine ⟨?_, ⟨?_, fun h => absurd h hinvalid⟩, fun _ => ⟨i, hi, hc⟩⟩
    · rw [hc]
      exact fun h => Construction.noConfusion h
    · rw [hc]
      exact fun h => Construction.noConfusion h

/-- Witness of C16: two `INT` columns and the count 2 build the comparator. -/
theorem C16_constructor_checks_nothing_witness :
    RowCurosrZOrderComparator.construct
        (Schema.of_list [.OLAP_FIELD_TYPE_INT, .OLAP_FIELD_TYPE_INT]) 2
      = .constructed (RowCurosrZOrderComparator.new
          (Schema.of_list [.OLAP_FIELD_TYPE_INT, .OLAP_FIELD_TYPE_INT]) 2) :=
  (C16_constructor_checks_nothing (Schema.of_list [.OLAP_FIELD_TYPE_INT, .OLAP_FIELD_TYPE_INT]) 2
    ⟨by decide, by decide⟩ (by decide)).2.1.2 ⟨by decide, by decide, by decide⟩

end doris
